import Mathlib

set_option maxHeartbeats 1000000
set_option maxRecDepth 4000

/-!
Shallow embedding of `compiler/rustc_codegen_cranelift/src/constant.rs`:
the constant/static materialization engine (`ConstantCx`, `define_all_allocs`,
`data_id_for_alloc_id`, `data_id_for_static`, `codegen_const_value`,
`pointer_for_allocation`, `codegen_static_ref`, `codegen_tls_ref`).

The cranelift `Module` backend and the relevant slice of `TyCtxt` are modelled
as explicit state records; `Vec::push`/`Vec::pop` on the work queue are
modelled with the top of the stack at the head of a list; `unwrap`/`assert!`
panics and `tcx.sess.fatal` are modelled by an `Option`/`fatal` outcome.
-/

namespace CgClif

/-- Association-list lookup, modelling the `FxHashMap` tables. -/
def alookup {α β : Type} [DecidableEq α] : List (α × β) → α → Option β
  | [], _ => none
  | (a, b) :: t, k => if a = k then some b else alookup t k

abbrev AllocId := Nat
abbrev DefId := Nat
abbrev DataId := Nat
abbrev FuncId := Nat

/-- `rustc_hir::Mutability`. -/
inductive Mutability
  | Not
  | Mut
deriving DecidableEq, Repr

/-- Target endianness (`tcx.data_layout.endian`). -/
inductive Endian
  | little
  | big
deriving DecidableEq, Repr

/-- An evaluator-produced memory block (`rustc_middle`'s `Allocation`): raw
bytes, the relocation table (byte offset ↦ target `AllocId`, kept sorted by
offset as in `rustc`), preferred alignment and mutability. -/
structure Allocation where
  bytes : List Nat
  relocs : List (Nat × AllocId)
  align : Nat
  mutability : Mutability
deriving DecidableEq, Repr

/-- `read_target_uint`: decode the integer stored in `bytes` with the target
endianness (bytes are `u8` values, so each is below `256`). -/
def read_target_uint (endian : Endian) (bytes : List Nat) : Nat :=
  match endian with
  | .little => bytes.foldr (fun b acc => b + 256 * acc) 0
  | .big => bytes.foldl (fun acc b => 256 * acc + b) 0

/-- Little-endian byte encoding of `n` in `size` bytes. -/
def leBytes : Nat → Nat → List Nat
  | 0, _ => []
  | k + 1, n => n % 256 :: leBytes k (n / 256)

/-- `write_target_uint`: target-endian byte encoding of `n` in `size` bytes. -/
def write_target_uint (endian : Endian) (size n : Nat) : List Nat :=
  match endian with
  | .little => leBytes size n
  | .big => (leBytes size n).reverse

/-- The `u64 → i64` `as`-cast used for `write_data_addr(_, _, addend as i64)`. -/
def i64_of_u64 (n : Nat) : Int :=
  if n < 2 ^ 63 then (n : Int) else (n : Int) - 2 ^ 64

/-- Largest value accepted by `i64::try_from` on a non-negative integer. -/
def i64max : Nat := 2 ^ 63 - 1

/-- `cranelift_module::Linkage`. -/
inductive Linkage
  | Import
  | Preemptible
  | Local
  | Hidden
  | Export
deriving DecidableEq, Repr

/-- Source-level linkage hint (`tcx.codegen_fn_attrs(def_id).linkage`),
restricted to the shapes `data_id_for_static` distinguishes. -/
inductive RLinkage
  | ExtWeak
  | WeakAny
  | OtherHint
deriving DecidableEq, Repr

/-- The content handed to `Module::define_data`: the `DataContext` payload. -/
structure DataDescription where
  align : Nat
  segSection : Option String
  bytes : List Nat
  dataRelocs : List (Nat × DataId × Int)
  funcRelocs : List (Nat × FuncId)
deriving DecidableEq, Repr

/-- A data object declaration recorded by the module backend. -/
structure DataDecl where
  name : Option String
  linkage : Linkage
  writable : Bool
  tls : Bool
deriving DecidableEq, Repr

/-- One cranelift `Module`: a counter of handles, the declared data objects,
the imported functions and the defined data objects (in definition order).
Redeclaring an existing name keeps the first declaration (the backend merges
linkage; no claim depends on the merged linkage). -/
structure ModuleState where
  nextId : Nat
  decls : List (DataId × DataDecl)
  funcs : List FuncId
  defs : List (DataId × DataDescription)
deriving DecidableEq, Repr

/-- First declared data object carrying the given symbol name. -/
def findNamedAux : List (DataId × DataDecl) → String → Option DataId
  | [], _ => none
  | (d, dec) :: t, s => if dec.name = some s then some d else findNamedAux t s

def ModuleState.findNamed (m : ModuleState) (s : String) : Option DataId :=
  findNamedAux m.decls s

/-- `Module::declare_data`: declaring the same name twice yields the same
handle. -/
def declare_data (m : ModuleState) (name : String) (linkage : Linkage)
    (writable : Bool) (tls : Bool) : DataId × ModuleState :=
  match findNamedAux m.decls name with
  | some d => (d, m)
  | none =>
      (m.nextId,
        { m with
            nextId := m.nextId + 1,
            decls := m.decls ++ [(m.nextId, ⟨some name, linkage, writable, tls⟩)] })

/-- `Module::declare_anonymous_data`: always a fresh handle. -/
def declare_anonymous_data (m : ModuleState) (writable : Bool) (tls : Bool) :
    DataId × ModuleState :=
  (m.nextId,
    { m with
        nextId := m.nextId + 1,
        decls := m.decls ++ [(m.nextId, ⟨none, Linkage.Local, writable, tls⟩)] })

inductive ModuleError
  | DuplicateDefinition
  | Backend
deriving DecidableEq, Repr

/-- `Module::define_data`: defining an already-defined object is the
`DuplicateDefinition` error. -/
def define_data (m : ModuleState) (d : DataId) (dctx : DataDescription) :
    Except ModuleError ModuleState :=
  if (alookup m.defs d).isSome then Except.error ModuleError.DuplicateDefinition
  else Except.ok { m with defs := m.defs ++ [(d, dctx)] }

/-- `crate::abi::import_function`, reduced to the module-side effect the
constant engine observes: the function handle becomes available. -/
def import_function (m : ModuleState) (inst : FuncId) : FuncId × ModuleState :=
  (inst, { m with funcs := if inst ∈ m.funcs then m.funcs else m.funcs ++ [inst] })

/-- `TodoItem` (constant.rs lines 24-28). -/
inductive TodoItem
  | Alloc (aid : AllocId)
  | Static (did : DefId)
deriving DecidableEq, Repr

/-- `ConstantCx` (constant.rs lines 18-22): the work queue (a `Vec`, modelled
with its top at the head), the done set and the allocation dedup table. -/
structure ConstantCx where
  todo : List TodoItem
  done : List DataId
  anon_allocs : List (AllocId × DataId)
deriving DecidableEq, Repr

/-- `ConstantCx::new`. -/
def ConstantCx.new : ConstantCx := ⟨[], [], []⟩

/-- The static-side attributes and evaluation results the engine reads from
`TyCtxt` for one `static` item. `defLinkage` is modelled from the spec:
`crate::linkage::get_static_linkage` is not under `src/`, and the spec says
the definition linkage "is derived from the static's source-level visibility",
so the derived linkage is carried as data. -/
structure StaticInfo where
  symbolName : String
  rlinkage : Option RLinkage
  threadLocal : Bool
  isMutableStatic : Bool
  isFreeze : Bool
  defLinkage : Linkage
  alignPref : Nat
  linkSection : Option String
  initAlloc : Allocation
deriving DecidableEq, Repr

/-- `rustc_middle`'s `GlobalAlloc`. -/
inductive GlobalAlloc
  | Memory (alloc : Allocation)
  | Function (inst : FuncId)
  | Static (did : DefId)
deriving DecidableEq, Repr

/-- The slice of `TyCtxt` the engine consumes. -/
structure Tcx where
  globalAllocs : List (AllocId × GlobalAlloc)
  statics : List (DefId × StaticInfo)
  endian : Endian
  ptrSize : Nat
deriving DecidableEq, Repr

def Tcx.getGlobalAlloc (tcx : Tcx) (aid : AllocId) : Option GlobalAlloc :=
  alookup tcx.globalAllocs aid

def Tcx.staticInfo (tcx : Tcx) (did : DefId) : Option StaticInfo :=
  alookup tcx.statics did

/-- `data_id_for_alloc_id` (constant.rs lines 267-276). -/
def data_id_for_alloc_id (cx : ConstantCx) (m : ModuleState) (aid : AllocId)
    (mutability : Mutability) : DataId × ConstantCx × ModuleState :=
  match alookup cx.anon_allocs aid with
  | some d => (d, cx, m)
  | none =>
      let r := declare_anonymous_data m (decide (mutability = Mutability.Mut)) false
      (r.1, { cx with anon_allocs := cx.anon_allocs ++ [(aid, r.1)] }, r.2)

/-- `data_id_for_static` (constant.rs lines 278-342). `none` models a panic
(`unwrap` of a missing item or of a non-duplicate module error). -/
def data_id_for_static (tcx : Tcx) (m : ModuleState) (did : DefId)
    (definition : Bool) : Option (DataId × ModuleState) :=
  match tcx.staticInfo did with
  | none => none
  | some info =>
      let rlinkage := info.rlinkage
      let linkage :=
        if definition then info.defLinkage
        else if rlinkage = some RLinkage.ExtWeak ∨ rlinkage = some RLinkage.WeakAny then
          Linkage.Preemptible
        else Linkage.Import
      let is_mutable := info.isMutableStatic || !info.isFreeze
      let r := declare_data m info.symbolName linkage is_mutable info.threadLocal
      if rlinkage.isSome then
        let ref_name := "_rust_extern_with_linkage_" ++ info.symbolName
        let r2 := declare_data r.2 ref_name Linkage.Local false false
        let data_ctx : DataDescription :=
          { align := info.alignPref, segSection := none,
            bytes := List.replicate tcx.ptrSize 0,
            dataRelocs := [(0, r.1, 0)], funcRelocs := [] }
        match define_data r2.2 r2.1 data_ctx with
        | Except.error ModuleError.DuplicateDefinition => some (r2.1, r2.2)
        | Except.error ModuleError.Backend => none
        | Except.ok m2 => some (r2.1, m2)
      else some (r.1, r.2)

/-- One iteration of the relocation scan of `define_all_allocs`
(constant.rs lines 384-426): compute the addend by decoding the pointer-sized
integer at the relocation's offset in the raw bytes, resolve the target, and
record the relocation in the `DataContext`. `none` models a panic or
`tcx.sess.fatal`. -/
def process_reloc (tcx : Tcx) (alloc : Allocation)
    (st : ConstantCx × ModuleState × DataDescription) (r : Nat × AllocId) :
    Option (ConstantCx × ModuleState × DataDescription) :=
  if r.1 + tcx.ptrSize ≤ alloc.bytes.length then
    let addend := read_target_uint tcx.endian ((alloc.bytes.drop r.1).take tcx.ptrSize)
    match tcx.getGlobalAlloc r.2 with
    | none => none
    | some (GlobalAlloc.Function inst) =>
        if addend = 0 then
          let ri := import_function st.2.1 inst
          some (st.1, ri.2,
            { st.2.2 with funcRelocs := st.2.2.funcRelocs ++ [(r.1, ri.1)] })
        else none
    | some (GlobalAlloc.Memory target_alloc) =>
        let cx2 : ConstantCx := { st.1 with todo := TodoItem.Alloc r.2 :: st.1.todo }
        let r3 := data_id_for_alloc_id cx2 st.2.1 r.2 target_alloc.mutability
        some (r3.2.1, r3.2.2,
          { st.2.2 with dataRelocs := st.2.2.dataRelocs ++ [(r.1, r3.1, i64_of_u64 addend)] })
    | some (GlobalAlloc.Static did) =>
        match tcx.staticInfo did with
        | none => none
        | some info =>
            if info.threadLocal then none
            else
              match data_id_for_static tcx st.2.1 did false with
              | none => none
              | some (d, m2) =>
                  some (st.1, m2,
                    { st.2.2 with dataRelocs := st.2.2.dataRelocs ++ [(r.1, d, i64_of_u64 addend)] })
  else none

/-- The relocation scan over the whole relocation table, in order. -/
def process_relocs (tcx : Tcx) (alloc : Allocation) :
    List (Nat × AllocId) → ConstantCx × ModuleState × DataDescription →
    Option (ConstantCx × ModuleState × DataDescription)
  | [], st => some st
  | r :: rest, st =>
      match process_reloc tcx alloc st r with
      | none => none
      | some st2 => process_relocs tcx alloc rest st2

/-- The state of one `define_all_allocs` run: the `ConstantCx` plus the
destination module. -/
structure EmitState where
  cx : ConstantCx
  module : ModuleState
deriving DecidableEq, Repr

inductive StepOut
  | finished (s : EmitState)
  | next (s : EmitState)
  | fatal
deriving DecidableEq, Repr

/-- The body of one drain-loop iteration after the `data_id` for the popped
item has been computed (constant.rs lines 369-429): skip if already done,
otherwise build the `DataContext` from the bytes and relocations, define the
object and mark it done. -/
def define_one (tcx : Tcx) (cx : ConstantCx) (m : ModuleState) (data_id : DataId)
    (alloc : Allocation) (section_name : Option String) : StepOut :=
  if data_id ∈ cx.done then StepOut.next ⟨cx, m⟩
  else
    let dctx0 : DataDescription :=
      { align := alloc.align, segSection := section_name,
        bytes := alloc.bytes, dataRelocs := [], funcRelocs := [] }
    match process_relocs tcx alloc alloc.relocs (cx, m, dctx0) with
    | none => StepOut.fatal
    | some (cx2, m2, dctx) =>
        match define_data m2 data_id dctx with
        | Except.ok m3 => StepOut.next ⟨{ cx2 with done := cx2.done ++ [data_id] }, m3⟩
        | Except.error _ => StepOut.fatal

/-- One iteration of the drain loop of `define_all_allocs`
(constant.rs lines 344-430): pop an item, compute its `data_id` (declaring if
needed), then `define_one`. `fatal` covers `unwrap`/`assert!` panics and
`tcx.sess.fatal`. -/
def define_all_allocs_step (tcx : Tcx) (s : EmitState) : StepOut :=
  match s.cx.todo with
  | [] => StepOut.finished s
  | todo_item :: rest =>
      let cx0 : ConstantCx := { s.cx with todo := rest }
      match todo_item with
      | TodoItem.Alloc alloc_id =>
          match tcx.getGlobalAlloc alloc_id with
          | some (GlobalAlloc.Memory alloc) =>
              let r := data_id_for_alloc_id cx0 s.module alloc_id alloc.mutability
              define_one tcx r.2.1 r.2.2 r.1 alloc none
          | _ => StepOut.fatal
      | TodoItem.Static did =>
          match tcx.staticInfo did with
          | none => StepOut.fatal
          | some info =>
              match data_id_for_static tcx s.module did true with
              | none => StepOut.fatal
              | some (data_id, m2) =>
                  define_one tcx cx0 m2 data_id info.initAlloc info.linkSection

/-- The drain loop of `define_all_allocs`, with explicit fuel; `none` models
both a panic/fatal abort and running out of fuel. -/
def define_all_allocs_loop (tcx : Tcx) : Nat → EmitState → Option EmitState
  | 0, _ => none
  | fuel + 1, s =>
      match define_all_allocs_step tcx s with
      | StepOut.finished s2 => some s2
      | StepOut.fatal => none
      | StepOut.next s2 => define_all_allocs_loop tcx fuel s2

/-- `ConstantCx::finalize` (constant.rs lines 35-40), with explicit fuel. -/
def ConstantCx.finalize (tcx : Tcx) (fuel : Nat) (cx : ConstantCx)
    (m : ModuleState) : Option ModuleState :=
  (define_all_allocs_loop tcx fuel ⟨cx, m⟩).map EmitState.module

/-- `codegen_static` (constant.rs lines 81-85). -/
def codegen_static (tcx : Tcx) (fuel : Nat) (m : ModuleState) (did : DefId) :
    Option ModuleState :=
  ConstantCx.finalize tcx fuel ⟨[TodoItem.Static did], [], []⟩ m

/-- The slice of `FunctionCx` the constant paths touch. `next_alloc_id`
implements `tcx.create_memory_alloc`, modelled from the spec (the interning
side of `rustc_middle` is not under `src/`): the spec says the synthesized
buffer "is locally unique per call and always freshly materialized", so each
call registers the allocation under a fresh `AllocId`. -/
structure FunctionCx where
  tcx : Tcx
  module : ModuleState
  constants_cx : ConstantCx
  next_alloc_id : AllocId
deriving DecidableEq, Repr

/-- `tcx.create_memory_alloc` (modelled from the spec, see `FunctionCx`):
register the allocation in the global allocation map under a fresh id. -/
def create_memory_alloc (fx : FunctionCx) (alloc : Allocation) :
    AllocId × FunctionCx :=
  (fx.next_alloc_id,
    { fx with
        tcx := { fx.tcx with
          globalAllocs :=
            fx.tcx.globalAllocs ++ [(fx.next_alloc_id, GlobalAlloc.Memory alloc)] },
        next_alloc_id := fx.next_alloc_id + 1 })

/-- The layout facts `codegen_const_value` reads from `fx.layout_of(ty)`,
plus whether `fx.clif_type(layout.ty)` is `Some` (the scalar has a native
cranelift type). -/
structure TyAndLayout where
  isZst : Bool
  isUnsized : Bool
  sizeBytes : Nat
  alignPref : Nat
  hasClifType : Bool
deriving DecidableEq, Repr

/-- The base of a `crate::pointer::Pointer`. -/
inductive PtrBase
  | dangling (align : Nat)
  | dataAddr (d : DataId)
deriving DecidableEq, Repr

/-- `crate::pointer::Pointer`: a base plus a byte offset. -/
structure MPointer where
  base : PtrBase
  offset : Int
deriving DecidableEq, Repr

def MPointer.offset_i64 (p : MPointer) (i : Int) : MPointer :=
  { p with offset := p.offset + i }

/-- Symbolic cranelift IR values, as far as the constant paths build them. -/
inductive IRValue
  | iconst (n : Int)
  | globalAddr (d : DataId)
  | addImm (v : IRValue) (imm : Int)
  | funcAddr (f : FuncId)
  | tlsValue (d : DataId)
deriving DecidableEq, Repr

/-- `Pointer::get_addr`: materialize the address (an `iadd_imm` when the
offset is non-zero; a dangling pointer's address is its alignment). -/
def MPointer.get_addr (p : MPointer) : IRValue :=
  match p.base with
  | PtrBase.dangling a =>
      if p.offset = 0 then IRValue.iconst a else IRValue.addImm (IRValue.iconst a) p.offset
  | PtrBase.dataAddr d =>
      if p.offset = 0 then IRValue.globalAddr d
      else IRValue.addImm (IRValue.globalAddr d) p.offset

/-- `CValue`. -/
inductive CValue
  | by_ref (p : MPointer) (layout : TyAndLayout)
  | by_val (v : IRValue) (layout : TyAndLayout)
  | by_val_pair (a b : IRValue) (layout : TyAndLayout)
deriving DecidableEq, Repr

/-- `CPlace::for_ptr`. -/
structure CPlace where
  ptr : MPointer
  layout : TyAndLayout
deriving DecidableEq, Repr

/-- `rustc_middle`'s `Scalar`: an integer or a pointer into an allocation. -/
inductive Scalar
  | int (n : Nat)
  | ptr (aid : AllocId) (offset : Nat)
deriving DecidableEq, Repr

/-- `ConstValue`, restricted to the variants `codegen_const_value` matches. -/
inductive ConstValue
  | scalar (x : Scalar)
  | by_ref_val (alloc : Allocation) (offset : Nat)
  | slice (data : Allocation) (start stop : Nat)
deriving DecidableEq, Repr

/-- The buffer synthesized on the no-native-type scalar path (constant.rs
lines 174-181): `size` zero bytes, then `Allocation::write_scalar` of the
scalar at offset 0 (target-endian bits for an integer; offset bytes plus a
relocation for a pointer). -/
def scalar_alloc (tcx : Tcx) (size align : Nat) (x : Scalar) : Allocation :=
  match x with
  | Scalar.int n =>
      { bytes := write_target_uint tcx.endian size n,
        relocs := [], align := align, mutability := Mutability.Not }
  | Scalar.ptr aid off =>
      { bytes := write_target_uint tcx.endian size off,
        relocs := [(0, aid)], align := align, mutability := Mutability.Not }

/-- `pointer_for_allocation` (constant.rs lines 250-265): intern the
allocation, enqueue it, obtain (declaring if needed) its data object and
return a pointer to the object's address. -/
def pointer_for_allocation (fx : FunctionCx) (alloc : Allocation) :
    MPointer × FunctionCx :=
  let r := create_memory_alloc fx alloc
  let fx1 := r.2
  let cx1 : ConstantCx :=
    { fx1.constants_cx with todo := TodoItem.Alloc r.1 :: fx1.constants_cx.todo }
  let r2 := data_id_for_alloc_id cx1 fx1.module r.1 alloc.mutability
  (⟨PtrBase.dataAddr r2.1, 0⟩, { fx1 with constants_cx := r2.2.1, module := r2.2.2 })

/-- `base_addr` plus the pointer's byte offset (constant.rs lines 223-228):
an `iadd_imm` when the offset is non-zero (`i64::try_from` must succeed). -/
def mk_ptr_val (base : IRValue) (off : Nat) (layout : TyAndLayout)
    (fx : FunctionCx) : Option (CValue × FunctionCx) :=
  if off = 0 then some (CValue.by_val base layout, fx)
  else if off ≤ i64max then
    some (CValue.by_val (IRValue.addImm base (Int.ofNat off)) layout, fx)
  else none

/-- `codegen_const_value` (constant.rs lines 159-248). `none` models a panic
(a failed `assert!`, `unwrap` or `try_from`). -/
def codegen_const_value (fx : FunctionCx) (const_val : ConstValue)
    (layout : TyAndLayout) : Option (CValue × FunctionCx) :=
  if layout.isUnsized then none
  else if layout.isZst then
    some (CValue.by_ref ⟨PtrBase.dangling layout.alignPref, 0⟩ layout, fx)
  else
    match const_val with
    | ConstValue.scalar x =>
        if !layout.hasClifType then
          match x with
          | Scalar.int _ =>
              let alloc := scalar_alloc fx.tcx layout.sizeBytes layout.alignPref x
              let r := pointer_for_allocation fx alloc
              some (CValue.by_ref r.1 layout, r.2)
          | Scalar.ptr _ _ =>
              if layout.sizeBytes = fx.tcx.ptrSize then
                let alloc := scalar_alloc fx.tcx layout.sizeBytes layout.alignPref x
                let r := pointer_for_allocation fx alloc
                some (CValue.by_ref r.1 layout, r.2)
              else none
        else
          match x with
          | Scalar.int n => some (CValue.by_val (IRValue.iconst (Int.ofNat n)) layout, fx)
          | Scalar.ptr aid off =>
              match fx.tcx.getGlobalAlloc aid with
              | some (GlobalAlloc.Memory alloc) =>
                  let cx1 : ConstantCx :=
                    { fx.constants_cx with todo := TodoItem.Alloc aid :: fx.constants_cx.todo }
                  let r := data_id_for_alloc_id cx1 fx.module aid alloc.mutability
                  mk_ptr_val (IRValue.globalAddr r.1) off layout
                    { fx with constants_cx := r.2.1, module := r.2.2 }
              | some (GlobalAlloc.Function inst) =>
                  let ri := import_function fx.module inst
                  mk_ptr_val (IRValue.funcAddr ri.1) off layout { fx with module := ri.2 }
              | some (GlobalAlloc.Static did) =>
                  match fx.tcx.staticInfo did with
                  | none => none
                  | some _ =>
                      match data_id_for_static fx.tcx fx.module did false with
                      | none => none
                      | some (d, m2) =>
                          mk_ptr_val (IRValue.globalAddr d) off layout { fx with module := m2 }
              | none => none
    | ConstValue.by_ref_val alloc offset =>
        if offset ≤ i64max then
          let r := pointer_for_allocation fx alloc
          some (CValue.by_ref (r.1.offset_i64 (Int.ofNat offset)) layout, r.2)
        else none
    | ConstValue.slice data start stop =>
        if start ≤ i64max then
          let r := pointer_for_allocation fx data
          let ptr := (r.1.offset_i64 (Int.ofNat start)).get_addr
          if start ≤ stop then
            if stop - start ≤ i64max then
              some (CValue.by_val_pair ptr (IRValue.iconst (Int.ofNat (stop - start))) layout,
                r.2)
            else none
          else none
        else none

/-- `codegen_static_ref` (constant.rs lines 101-121): obtain the static's
handle declare-only, build the address and assert the layout is sized and the
declared symbol is not thread-local (`none` models a failed `assert!`). -/
def codegen_static_ref (fx : FunctionCx) (did : DefId) (layout : TyAndLayout) :
    Option (CPlace × FunctionCx) :=
  match data_id_for_static fx.tcx fx.module did false with
  | none => none
  | some (d, m2) =>
      if layout.isUnsized then none
      else
        match alookup m2.decls d with
        | none => none
        | some dec =>
            if dec.tls then none
            else some (⟨⟨PtrBase.dataAddr d, 0⟩, layout⟩, { fx with module := m2 })

/-- `codegen_tls_ref` (constant.rs lines 87-99). -/
def codegen_tls_ref (fx : FunctionCx) (did : DefId) (layout : TyAndLayout) :
    Option (CValue × FunctionCx) :=
  match data_id_for_static fx.tcx fx.module did false with
  | none => none
  | some (d, m2) =>
      some (CValue.by_val (IRValue.tlsValue d) layout, { fx with module := m2 })

/-- The allocation id resolves to an evaluator memory block. -/
def isMemoryTarget (tcx : Tcx) (aid : AllocId) : Bool :=
  match tcx.getGlobalAlloc aid with
  | some (GlobalAlloc.Memory _) => true
  | _ => false

/-! ### Concrete states used by witnesses -/

/-- A fresh module. -/
def mEmpty : ModuleState := ⟨0, [], [], []⟩

/-- A `FunctionCx` over an empty `TyCtxt` and a fresh module. -/
def fxEmpty : FunctionCx := ⟨⟨[], [], Endian.little, 8⟩, mEmpty, ConstantCx.new, 0⟩

/-- Concrete static used by witnesses: symbol `FOO` with a `weak` linkage
hint. -/
def infoFOO : StaticInfo :=
  { symbolName := "FOO", rlinkage := some RLinkage.WeakAny, threadLocal := false,
    isMutableStatic := false, isFreeze := true, defLinkage := Linkage.Export,
    alignPref := 8, linkSection := none,
    initAlloc := ⟨[0], [], 1, Mutability.Not⟩ }

def tcxFOO : Tcx := ⟨[], [(0, infoFOO)], Endian.little, 8⟩

/-! ### C10: assertions of the ordinary static-reference path -/

/-- A thread-local static that also carries a source-level linkage hint. -/
def infoTLSW : StaticInfo :=
  { symbolName := "T", rlinkage := some RLinkage.WeakAny, threadLocal := true,
    isMutableStatic := false, isFreeze := true, defLinkage := Linkage.Export,
    alignPref := 8, linkSection := none,
    initAlloc := ⟨[0], [], 1, Mutability.Not⟩ }

def tcxTLSW : Tcx := ⟨[], [(3, infoTLSW)], Endian.little, 8⟩

/-- The same static without the linkage hint, and a `FunctionCx` over it. -/
def infoTLS : StaticInfo := { infoTLSW with rlinkage := none }

def fxTLS : FunctionCx := ⟨⟨[], [(3, infoTLS)], Endian.little, 8⟩, mEmpty, ConstantCx.new, 0⟩

/-- A one-byte-pointer target with a function at alloc id 40 (zero addend
stored), a memory block at 41 (stored addend 9). -/
def tcx8 : Tcx :=
  ⟨[(40, GlobalAlloc.Function 5), (41, GlobalAlloc.Memory ⟨[], [], 1, Mutability.Not⟩)],
    [], Endian.little, 1⟩

def alloc8 : Allocation := ⟨[0, 9], [(0, 40), (1, 41)], 8, Mutability.Not⟩

def alloc8b : Allocation := ⟨[3], [(0, 40)], 8, Mutability.Not⟩

/-- A thread-local static at def id 7 targeted by a relocation of the memory
block `allocT` (one-byte pointers). -/
def tcxT : Tcx :=
  ⟨[(5, GlobalAlloc.Memory ⟨[0], [(0, 20)], 1, Mutability.Not⟩),
    (20, GlobalAlloc.Static 7)],
    [(7, { infoTLS with symbolName := "T7" })], Endian.little, 1⟩

def allocT : Allocation := ⟨[0], [(0, 20)], 1, Mutability.Not⟩

/-- A non-thread-local static at def id 0 targeted by a relocation. -/
def tcxS : Tcx :=
  ⟨[(42, GlobalAlloc.Static 0)],
    [(0, { infoTLS with symbolName := "A", threadLocal := false })],
    Endian.little, 1⟩

def allocS : Allocation := ⟨[0], [(0, 42)], 1, Mutability.Not⟩

/-! ### Well-formedness and invariants for the drain loop -/

/-- The data object is declared anonymously in the module. -/
def declaredAnonB (m : ModuleState) (d : DataId) : Bool :=
  match alookup m.decls d with
  | some dec => dec.name.isNone
  | none => false

/-- One relocation is scannable without a panic: the stored integer is in
bounds, the target resolves, a function target stores zero, a static target
is not thread-local. -/
def allocRelocWFB (tcx : Tcx) (alloc : Allocation) (r : Nat × AllocId) : Bool :=
  decide (r.1 + tcx.ptrSize ≤ alloc.bytes.length) &&
  (match tcx.getGlobalAlloc r.2 with
   | some (GlobalAlloc.Function _) =>
       decide (read_target_uint tcx.endian ((alloc.bytes.drop r.1).take tcx.ptrSize) = 0)
   | some (GlobalAlloc.Memory _) => true
   | some (GlobalAlloc.Static did) =>
       match tcx.staticInfo did with
       | some info => !info.threadLocal
       | none => false
   | none => false)

def allocWFB (tcx : Tcx) (alloc : Allocation) : Bool :=
  alloc.relocs.all (allocRelocWFB tcx alloc)

/-- Well-formed allocation graph: every memory block and every static
initializer is scannable, and no static carries a source-level linkage hint
(the hint path cannot survive a definition, see the C1 counterexample). -/
def tcxWFB (tcx : Tcx) : Bool :=
  (tcx.globalAllocs.all (fun p => match p.2 with
    | GlobalAlloc.Memory a => allocWFB tcx a
    | _ => true)) &&
  (tcx.statics.all (fun p => p.2.rlinkage.isNone && allocWFB tcx p.2.initAlloc))

/-- Module sanity: declaration and definition keys are unique and below the
handle counter. -/
def ModInvP (m : ModuleState) : Prop :=
  (m.decls.map Prod.fst).Nodup ∧
  (∀ p ∈ m.decls, p.1 < m.nextId) ∧
  (m.defs.map Prod.fst).Nodup ∧
  (∀ p ∈ m.defs, p.1 < m.nextId)

/-- The dedup-table invariants carried through the relocation scan. `ex` is
the handle of the object currently being defined: its queue entry has just
been popped, so it is exempt from the pending-or-done disjunction until the
definition completes. -/
def ScanInv (ex : DataId) (cx : ConstantCx) (m : ModuleState) : Prop :=
  ModInvP m ∧
  (cx.anon_allocs.map Prod.fst).Nodup ∧
  (∀ p ∈ cx.anon_allocs, declaredAnonB m p.2 = true) ∧
  (∀ p ∈ cx.anon_allocs, (alookup m.defs p.2).isSome = true → p.2 ∈ cx.done) ∧
  (∀ p ∈ cx.anon_allocs, p.2 ∈ cx.done ∨ TodoItem.Alloc p.1 ∈ cx.todo ∨ p.2 = ex)

/-- What must hold of a queued item against the current state: allocation
items resolve to memory blocks; a static item whose symbol is already
declared and defined must already be marked done (otherwise its definition
attempt would be a fatal duplicate). -/
def todoWFB (tcx : Tcx) (s : EmitState) : TodoItem → Bool
  | TodoItem.Alloc aid => isMemoryTarget tcx aid
  | TodoItem.Static did =>
      match tcx.staticInfo did with
      | none => false
      | some info =>
          match findNamedAux s.module.decls info.symbolName with
          | none => true
          | some d => !(alookup s.module.defs d).isSome || decide (d ∈ s.cx.done)

/-- The drain-loop invariant. -/
def StateInv (tcx : Tcx) (s : EmitState) : Prop :=
  ModInvP s.module ∧
  (s.cx.anon_allocs.map Prod.fst).Nodup ∧
  (∀ p ∈ s.cx.anon_allocs, declaredAnonB s.module p.2 = true) ∧
  (∀ p ∈ s.cx.anon_allocs, (alookup s.module.defs p.2).isSome = true → p.2 ∈ s.cx.done) ∧
  (∀ p ∈ s.cx.anon_allocs, p.2 ∈ s.cx.done ∨ TodoItem.Alloc p.1 ∈ s.cx.todo) ∧
  (∀ d ∈ s.cx.done, (alookup s.module.defs d).isSome = true) ∧
  (∀ it ∈ s.cx.todo, todoWFB tcx s it = true) ∧
  (∀ p ∈ s.module.defs, ∀ t ∈ p.2.dataRelocs, (alookup s.module.decls t.2.1).isSome = true)

instance stateInvDecidable (tcx : Tcx) (s : EmitState) : Decidable (StateInv tcx s) := by
  unfold StateInv ModInvP
  infer_instance

/-- The allocation ids of all evaluator memory blocks. -/
def memAllocIds (tcx : Tcx) : List AllocId :=
  (tcx.globalAllocs.filter (fun p => match p.2 with
    | GlobalAlloc.Memory _ => true
    | _ => false)).map Prod.fst

/-- The allocation identity has been emitted. -/
def allocDoneB (s : EmitState) (aid : AllocId) : Bool :=
  match alookup s.cx.anon_allocs aid with
  | some d => decide (d ∈ s.cx.done)
  | none => false

/-- The static identity (through its stable symbol name) has been emitted. -/
def staticDoneB (s : EmitState) (info : StaticInfo) : Bool :=
  match findNamedAux s.module.decls info.symbolName with
  | some d => decide (d ∈ s.cx.done)
  | none => false

/-- Identities of the graph not yet emitted. -/
def remaining (tcx : Tcx) (s : EmitState) : Nat :=
  ((memAllocIds tcx).filter (fun aid => !allocDoneB s aid)).length +
  ((tcx.statics.map Prod.snd).filter (fun info => !staticDoneB s info)).length

/-- Upper bound on how many work items one emission can push. -/
def maxRelocs (tcx : Tcx) : Nat :=
  List.foldr max 0
    ((tcx.globalAllocs.map (fun p => match p.2 with
        | GlobalAlloc.Memory a => a.relocs.length
        | _ => 0)) ++
      tcx.statics.map (fun p => p.2.initAlloc.relocs.length))

/-- The termination measure of the drain loop. -/
def loopMeasure (tcx : Tcx) (s : EmitState) : Nat :=
  s.cx.todo.length + (maxRelocs tcx + 1) * remaining tcx s

/-- The data object handle a queued identity resolves to. -/
def itemHandle (tcx : Tcx) (s : EmitState) : TodoItem → Option DataId
  | TodoItem.Alloc aid => alookup s.cx.anon_allocs aid
  | TodoItem.Static did =>
      match tcx.staticInfo did with
      | some info => findNamedAux s.module.decls info.symbolName
      | none => none

/-- The queued identity's object has been emitted. -/
def itemDone (tcx : Tcx) (s : EmitState) (it : TodoItem) : Prop :=
  ∃ d, itemHandle tcx s it = some d ∧ d ∈ s.cx.done

/-- Monotone evolution of the engine state: the done set, the dedup table,
the declaration tables and the definition table only ever grow. -/
structure StateLE (s s2 : EmitState) : Prop where
  done_le : ∀ d ∈ s.cx.done, d ∈ s2.cx.done
  anon_le : ∀ aid d, alookup s.cx.anon_allocs aid = some d →
    alookup s2.cx.anon_allocs aid = some d
  named_le : ∀ nm d, findNamedAux s.module.decls nm = some d →
    findNamedAux s2.module.decls nm = some d
  decls_le : ∀ d dec, alookup s.module.decls d = some dec →
    alookup s2.module.decls d = some dec
  defs_le : ∀ d c, alookup s.module.defs d = some c →
    alookup s2.module.defs d = some c

/-- The addend stored at a relocation's offset, as recorded by the scan. -/
def addendOf (tcx : Tcx) (alloc : Allocation) (off : Nat) : Int :=
  i64_of_u64 (read_target_uint tcx.endian ((alloc.bytes.drop off).take tcx.ptrSize))

/-- Static `A`, whose initializer stores a pointer to static `B`. -/
def infoCA : StaticInfo :=
  ⟨"A", none, false, false, true, Linkage.Export, 1, none,
    ⟨[0], [(0, 11)], 1, Mutability.Not⟩⟩

/-- Static `B`, whose initializer stores a pointer to static `A`: together
with `A` this is the two-static reference cycle of the cycle-safety claim. -/
def infoCB : StaticInfo :=
  ⟨"B", none, false, false, true, Linkage.Export, 1, none,
    ⟨[0], [(0, 10)], 1, Mutability.Not⟩⟩

/-- The cyclic allocation graph: allocation ids `10`/`11` resolve to the two
statics, whose initializers point at each other. -/
def tcxC : Tcx :=
  ⟨[(10, GlobalAlloc.Static 0), (11, GlobalAlloc.Static 1)],
    [(0, infoCA), (1, infoCB)], Endian.little, 1⟩

/-- Both cyclic statics enqueued on a fresh module. -/
def s0C : EmitState :=
  ⟨⟨[TodoItem.Static 0, TodoItem.Static 1], [], []⟩, mEmpty⟩

/-- The work queue holding only static `A`. -/
def cxW1 : ConstantCx := ⟨[TodoItem.Static 0], [], []⟩

/-! ### Lookup helper lemmas -/

theorem alookup_append_some {α β : Type} [DecidableEq α] {l1 : List (α × β)}
    (l2 : List (α × β)) {k : α} {v : β} (h : alookup l1 k = some v) :
    alookup (l1 ++ l2) k = some v := by
  induction l1 with
  | nil => simp [alookup] at h
  | cons p t ih =>
      cases p with
      | mk a b =>
          simp only [alookup, List.cons_append] at h ⊢
          split at h
          · simp [*] at h ⊢
          · simp only [*, if_neg]
            exact ih h

theorem alookup_append_none {α β : Type} [DecidableEq α] {l1 : List (α × β)}
    (l2 : List (α × β)) {k : α} (h : alookup l1 k = none) :
    alookup (l1 ++ l2) k = alookup l2 k := by
  induction l1 with
  | nil => simp
  | cons p t ih =>
      cases p with
      | mk a b =>
          simp only [alookup, List.cons_append] at h ⊢
          split at h
          · exact absurd h (by simp)
          · simp only [*, if_neg]
            exact ih h

theorem alookup_mem {α β : Type} [DecidableEq α] {l : List (α × β)} {k : α} {v : β}
    (h : alookup l k = some v) : (k, v) ∈ l := by
  induction l with
  | nil => simp [alookup] at h
  | cons p t ih =>
      cases p with
      | mk a b =>
          simp only [alookup] at h
          split at h
          · cases h
            simp_all
          · exact List.mem_cons_of_mem _ (ih h)

theorem alookup_singleton {α β : Type} [DecidableEq α] (k : α) (v : β) :
    alookup [(k, v)] k = some v := by
  simp [alookup]

theorem findNamedAux_append_some {l1 : List (DataId × DataDecl)}
    (l2 : List (DataId × DataDecl)) {s : String} {d : DataId}
    (h : findNamedAux l1 s = some d) : findNamedAux (l1 ++ l2) s = some d := by
  induction l1 with
  | nil => simp [findNamedAux] at h
  | cons p t ih =>
      cases p with
      | mk a dec =>
          simp only [findNamedAux, List.cons_append] at h ⊢
          split at h
          · simp [*] at h ⊢
          · simp only [*, if_neg]
            exact ih h

theorem findNamedAux_append_none {l1 : List (DataId × DataDecl)}
    (l2 : List (DataId × DataDecl)) {s : String}
    (h : findNamedAux l1 s = none) :
    findNamedAux (l1 ++ l2) s = findNamedAux l2 s := by
  induction l1 with
  | nil => simp
  | cons p t ih =>
      cases p with
      | mk a dec =>
          simp only [findNamedAux, List.cons_append] at h ⊢
          split at h
          · exact absurd h (by simp)
          · simp only [*, if_neg]
            exact ih h

theorem findNamedAux_mem {l : List (DataId × DataDecl)} {s : String} {d : DataId}
    (h : findNamedAux l s = some d) :
    ∃ dec, (d, dec) ∈ l ∧ dec.name = some s := by
  induction l with
  | nil => simp [findNamedAux] at h
  | cons p t ih =>
      cases p with
      | mk a dec =>
          simp only [findNamedAux] at h
          split at h
          · cases h
            exact ⟨dec, by simp, by assumption⟩
          · obtain ⟨dec2, hm, hn⟩ := ih h
            exact ⟨dec2, List.mem_cons_of_mem _ hm, hn⟩

/-! ### C4: dedup of anonymous allocation handles -/

/-- C4: `data_id_for_alloc_id` is idempotent per `ConstantCx`: for an
`AllocId` not yet in the dedup table, the first call declares a new anonymous
data object (the module gains exactly that declaration) and records it in
`anon_allocs`; a subsequent call with the same `AllocId` returns the identical
`DataId` and leaves both the `ConstantCx` and the module unchanged (so
`declare_anonymous_data` is not called again, and at most one data object is
ever declared for the allocation identity). -/
theorem data_id_for_alloc_id_idempotent (cx : ConstantCx) (m : ModuleState)
    (aid : AllocId) (mut1 mut2 : Mutability)
    (h : alookup cx.anon_allocs aid = none) :
    (data_id_for_alloc_id cx m aid mut1).1 = m.nextId ∧
    (data_id_for_alloc_id cx m aid mut1).2.2.decls =
      m.decls ++ [(m.nextId, ⟨none, Linkage.Local, decide (mut1 = Mutability.Mut), false⟩)] ∧
    alookup (data_id_for_alloc_id cx m aid mut1).2.1.anon_allocs aid =
      some (data_id_for_alloc_id cx m aid mut1).1 ∧
    data_id_for_alloc_id (data_id_for_alloc_id cx m aid mut1).2.1
        (data_id_for_alloc_id cx m aid mut1).2.2 aid mut2 =
      ((data_id_for_alloc_id cx m aid mut1).1,
        (data_id_for_alloc_id cx m aid mut1).2.1,
        (data_id_for_alloc_id cx m aid mut1).2.2) := by
  have h2 : alookup (cx.anon_allocs ++ [(aid, m.nextId)]) aid = some m.nextId := by
    rw [alookup_append_none _ h]
    exact alookup_singleton aid m.nextId
  refine ⟨?_, ?_, ?_, ?_⟩ <;>
    simp [data_id_for_alloc_id, declare_anonymous_data, h, h2]

/-- Witness for C4 at a concrete input: the second call for `AllocId` 0
returns the identical handle and state. -/
theorem data_id_for_alloc_id_idempotent_witness :
    data_id_for_alloc_id
      (data_id_for_alloc_id ConstantCx.new mEmpty 0 Mutability.Not).2.1
      (data_id_for_alloc_id ConstantCx.new mEmpty 0 Mutability.Not).2.2 0 Mutability.Mut =
    ((data_id_for_alloc_id ConstantCx.new mEmpty 0 Mutability.Not).1,
      (data_id_for_alloc_id ConstantCx.new mEmpty 0 Mutability.Not).2.1,
      (data_id_for_alloc_id ConstantCx.new mEmpty 0 Mutability.Not).2.2) :=
  (data_id_for_alloc_id_idempotent ConstantCx.new mEmpty 0
    Mutability.Not Mutability.Mut rfl).2.2.2

/-! ### C9: zero-size constants -/

/-- C9: for a constant of a zero-size type, `codegen_const_value` returns a
dangling by-reference value aligned to the preferred alignment and leaves the
whole `FunctionCx` (module, work queue, dedup table) unchanged: no data object
is declared, nothing is enqueued. -/
theorem codegen_const_value_zst (fx : FunctionCx) (cv : ConstValue)
    (layout : TyAndLayout) (hz : layout.isZst = true)
    (hu : layout.isUnsized = false) :
    codegen_const_value fx cv layout =
      some (CValue.by_ref ⟨PtrBase.dangling layout.alignPref, 0⟩ layout, fx) := by
  simp [codegen_const_value, hz, hu]

/-- Witness for C9 at a concrete zero-size layout. -/
theorem codegen_const_value_zst_witness :
    codegen_const_value fxEmpty (ConstValue.scalar (Scalar.int 3))
        ⟨true, false, 0, 1, false⟩ =
      some (CValue.by_ref ⟨PtrBase.dangling 1, 0⟩ ⟨true, false, 0, 1, false⟩, fxEmpty) :=
  codegen_const_value_zst fxEmpty (ConstValue.scalar (Scalar.int 3))
    ⟨true, false, 0, 1, false⟩ rfl rfl

/-! ### C7: weak/extern-with-linkage indirection idempotence -/

theorem declare_data_fresh (m : ModuleState) (name : String) (linkage : Linkage)
    (w t : Bool) (h : findNamedAux m.decls name = none) :
    declare_data m name linkage w t =
      (m.nextId,
        { m with
            nextId := m.nextId + 1,
            decls := m.decls ++ [(m.nextId, ⟨some name, linkage, w, t⟩)] }) := by
  simp [declare_data, h]

theorem declare_data_found (m : ModuleState) (name : String) (linkage : Linkage)
    (w t : Bool) (d : DataId) (h : findNamedAux m.decls name = some d) :
    declare_data m name linkage w t = (d, m) := by
  simp [declare_data, h]

theorem findNamedAux_append_singleton_ne (l : List (DataId × DataDecl))
    (d : DataId) (dec : DataDecl) (s : String)
    (h : findNamedAux l s = none) (hne2 : ¬ dec.name = some s) :
    findNamedAux (l ++ [(d, dec)]) s = none := by
  rw [findNamedAux_append_none _ h]
  simp [findNamedAux, hne2]

theorem symbolName_ne_ref_name (s : String) :
    s ≠ "_rust_extern_with_linkage_" ++ s := by
  intro h
  have hl := congrArg String.length h
  rw [String.length_append] at hl
  have hpl : 0 < "_rust_extern_with_linkage_".length := by decide
  omega

/-- C7: for a static carrying a source-level linkage hint, the first
declare-only call to `data_id_for_static` declares the symbol and the derived
`_rust_extern_with_linkage_<symbol>` indirection object, writes the
indirection object's pointer-slot definition exactly once, hands back the
indirection object's handle, and the indirection object has local linkage;
a repeated call from another independent reference site returns the identical
handle with the module unchanged: the duplicate definition attempt is
swallowed (`DuplicateDefinition` is accepted as a no-op), so no matter how
many reference sites declare the static, exactly one definition of the
indirection object is ever written. -/
theorem data_id_for_static_weak_indirection (tcx : Tcx) (m : ModuleState)
    (did : DefId) (info : StaticInfo)
    (h1 : tcx.staticInfo did = some info)
    (h2 : info.rlinkage.isSome = true)
    (h3 : findNamedAux m.decls info.symbolName = none)
    (h4 : findNamedAux m.decls ("_rust_extern_with_linkage_" ++ info.symbolName) = none)
    (h5 : alookup m.defs (m.nextId + 1) = none)
    (h6 : alookup m.decls (m.nextId + 1) = none) :
    ∃ m1 : ModuleState,
      data_id_for_static tcx m did false = some (m.nextId + 1, m1) ∧
      m1.defs = m.defs ++
        [(m.nextId + 1,
          ⟨info.alignPref, none, List.replicate tcx.ptrSize 0, [(0, m.nextId, 0)], []⟩)] ∧
      alookup m1.decls (m.nextId + 1) =
        some ⟨some ("_rust_extern_with_linkage_" ++ info.symbolName),
          Linkage.Local, false, false⟩ ∧
      data_id_for_static tcx m1 did false = some (m.nextId + 1, m1) := by
  have hne := symbolName_ne_ref_name info.symbolName
  have hne2 : ¬ (⟨some info.symbolName,
      (if info.rlinkage = some RLinkage.ExtWeak ∨ info.rlinkage = some RLinkage.WeakAny
        then Linkage.Preemptible else Linkage.Import),
      info.isMutableStatic || !info.isFreeze, info.threadLocal⟩ : DataDecl).name =
      some ("_rust_extern_with_linkage_" ++ info.symbolName) := by
    simp only [Option.some.injEq]
    exact hne
  have hf2 : findNamedAux
      (m.decls ++ [(m.nextId,
        ⟨some info.symbolName,
          (if info.rlinkage = some RLinkage.ExtWeak ∨ info.rlinkage = some RLinkage.WeakAny
            then Linkage.Preemptible else Linkage.Import),
          info.isMutableStatic || !info.isFreeze, info.threadLocal⟩)])
      ("_rust_extern_with_linkage_" ++ info.symbolName) = none :=
    findNamedAux_append_singleton_ne _ _ _ _ h4 hne2
  have hsym : findNamedAux
      (m.decls ++ [(m.nextId,
        ⟨some info.symbolName,
          (if info.rlinkage = some RLinkage.ExtWeak ∨ info.rlinkage = some RLinkage.WeakAny
            then Linkage.Preemptible else Linkage.Import),
          info.isMutableStatic || !info.isFreeze, info.threadLocal⟩)])
      info.symbolName = some m.nextId := by
    rw [findNamedAux_append_none _ h3]
    simp [findNamedAux]
  simp only [data_id_for_static, h1, h2, Bool.false_eq_true, if_false, if_true]
  rw [declare_data_fresh m info.symbolName _ _ _ h3]
  rw [declare_data_fresh _ ("_rust_extern_with_linkage_" ++ info.symbolName)
    Linkage.Local false false hf2]
  simp only [define_data, h5, Option.isSome_none, Bool.false_eq_true, if_false]
  refine ⟨_, rfl, ?_, ?_, ?_⟩
  · rfl
  · have hx : alookup
        (m.decls ++ [(m.nextId,
          ⟨some info.symbolName,
            (if info.rlinkage = some RLinkage.ExtWeak ∨ info.rlinkage = some RLinkage.WeakAny
              then Linkage.Preemptible else Linkage.Import),
            info.isMutableStatic || !info.isFreeze, info.threadLocal⟩)]) (m.nextId + 1) = none := by
      rw [alookup_append_none _ h6]
      simp [alookup]
    rw [show (m.nextId + 1 + 1) = m.nextId + 2 from rfl]
    rw [alookup_append_none _ hx]
    simp [alookup]
  · have hfound1 := findNamedAux_append_some
      [(m.nextId + 1,
        (⟨some ("_rust_extern_with_linkage_" ++ info.symbolName),
          Linkage.Local, false, false⟩ : DataDecl))] hsym
    have hfound2 : findNamedAux
        ((m.decls ++ [(m.nextId,
          (⟨some info.symbolName,
            (if info.rlinkage = some RLinkage.ExtWeak ∨ info.rlinkage = some RLinkage.WeakAny
              then Linkage.Preemptible else Linkage.Import),
            info.isMutableStatic || !info.isFreeze, info.threadLocal⟩ : DataDecl))]) ++
          [(m.nextId + 1,
            (⟨some ("_rust_extern_with_linkage_" ++ info.symbolName),
              Linkage.Local, false, false⟩ : DataDecl))])
        ("_rust_extern_with_linkage_" ++ info.symbolName) = some (m.nextId + 1) := by
      rw [findNamedAux_append_none _ hf2]
      simp [findNamedAux]
    have hdef : alookup
        (m.defs ++ [(m.nextId + 1,
          (⟨info.alignPref, none, List.replicate tcx.ptrSize 0,
            [(0, m.nextId, 0)], []⟩ : DataDescription))]) (m.nextId + 1) =
        some ⟨info.alignPref, none, List.replicate tcx.ptrSize 0, [(0, m.nextId, 0)], []⟩ := by
      rw [alookup_append_none _ h5]
      simp [alookup]
    rw [declare_data_found _ info.symbolName _ _ _ _ hfound1]
    rw [declare_data_found _ ("_rust_extern_with_linkage_" ++ info.symbolName) _ _ _ _ hfound2]
    simp only [define_data, hdef, Option.isSome_some, if_true]

/-- Witness for C7: declaring `FOO` from a fresh module. -/
theorem data_id_for_static_weak_indirection_witness :
    ∃ m1 : ModuleState,
      data_id_for_static tcxFOO mEmpty 0 false = some (mEmpty.nextId + 1, m1) ∧
      m1.defs = mEmpty.defs ++
        [(mEmpty.nextId + 1,
          ⟨infoFOO.alignPref, none, List.replicate tcxFOO.ptrSize 0,
            [(0, mEmpty.nextId, 0)], []⟩)] ∧
      alookup m1.decls (mEmpty.nextId + 1) =
        some ⟨some ("_rust_extern_with_linkage_" ++ infoFOO.symbolName),
          Linkage.Local, false, false⟩ ∧
      data_id_for_static tcxFOO m1 0 false = some (mEmpty.nextId + 1, m1) :=
  data_id_for_static_weak_indirection tcxFOO mEmpty 0 infoFOO
    rfl rfl rfl rfl rfl rfl

/-! ### C1: definition of enqueued identities; the linkage-hint corner -/

/-- C1 counterexample: for a static that carries a source-level linkage hint
(`tcxFOO`'s static 0, hint `weak`), the definition path is broken: the handle
returned for the definition site is the indirection object (id 1) while the
primary `FOO` object (id 0) stays undefined, the first drain-loop step aborts
fatally (the initializer bytes are defined into the already-defined
indirection object, a `DuplicateDefinition` that `define_all_allocs` unwraps),
and `codegen_static`/`finalize` never returns normally — so the enqueued
static is not "fully defined exactly once before `finalize` returns". -/
theorem define_enqueued_static_linkage_hint_counterexample :
    codegen_static tcxFOO 9 mEmpty 0 = none ∧
    (data_id_for_static tcxFOO mEmpty 0 true).map
        (fun r => (r.1, r.2.findNamed "FOO", alookup r.2.defs 0)) =
      some (1, some 0, none) ∧
    define_all_allocs_step tcxFOO ⟨⟨[TodoItem.Static 0], [], []⟩, mEmpty⟩ =
      StepOut.fatal :=
  ⟨rfl, rfl, rfl⟩

/-! ### C5: slice constants -/

/-- C5: for a slice constant with bounds `start`/`stop` over a backing
allocation, `codegen_const_value` yields a pair whose address is the backing
allocation's handle offset by `start` and whose length is `stop - start`;
when `stop < start` the checked subtraction fails, so the call aborts
(`MalformedConstant`: modelled as `none`) and no representation is
produced. -/
theorem codegen_const_value_slice (fx : FunctionCx) (data : Allocation)
    (start stop : Nat) (layout : TyAndLayout)
    (hu : layout.isUnsized = false) (hz : layout.isZst = false)
    (hs : start ≤ i64max) (hl : stop - start ≤ i64max) :
    (start ≤ stop →
      ∃ d fx1, pointer_for_allocation fx data = (⟨PtrBase.dataAddr d, 0⟩, fx1) ∧
        codegen_const_value fx (ConstValue.slice data start stop) layout =
          some (CValue.by_val_pair
            (MPointer.get_addr ⟨PtrBase.dataAddr d, (0 : Int) + Int.ofNat start⟩)
            (IRValue.iconst (Int.ofNat (stop - start))) layout, fx1)) ∧
    (stop < start →
      codegen_const_value fx (ConstValue.slice data start stop) layout = none) := by
  constructor
  · intro hss
    refine ⟨(data_id_for_alloc_id
        { (create_memory_alloc fx data).2.constants_cx with
            todo := TodoItem.Alloc (create_memory_alloc fx data).1 ::
              (create_memory_alloc fx data).2.constants_cx.todo }
        (create_memory_alloc fx data).2.module
        (create_memory_alloc fx data).1 data.mutability).1, _, rfl, ?_⟩
    simp [codegen_const_value, hu, hz, hs, hss, hl, pointer_for_allocation,
      MPointer.offset_i64, MPointer.get_addr]
  · intro hlt
    have : ¬ start ≤ stop := by omega
    simp [codegen_const_value, hu, hz, hs, this]

/-- Witness for C5: the spec's round-trip example, `start = 3`, `stop = 7`
over a 10-byte buffer: length 4, address `handle + 3`. -/
theorem codegen_const_value_slice_witness :
    (3 ≤ 7 →
      ∃ d fx1, pointer_for_allocation fxEmpty ⟨[1,2,3,4,5,6,7,8,9,10], [], 1, Mutability.Not⟩ =
          (⟨PtrBase.dataAddr d, 0⟩, fx1) ∧
        codegen_const_value fxEmpty
            (ConstValue.slice ⟨[1,2,3,4,5,6,7,8,9,10], [], 1, Mutability.Not⟩ 3 7)
            ⟨false, false, 16, 8, false⟩ =
          some (CValue.by_val_pair
            (MPointer.get_addr ⟨PtrBase.dataAddr d, (0 : Int) + Int.ofNat 3⟩)
            (IRValue.iconst (Int.ofNat (7 - 3))) ⟨false, false, 16, 8, false⟩, fx1)) ∧
    (7 < 3 →
      codegen_const_value fxEmpty
          (ConstValue.slice ⟨[1,2,3,4,5,6,7,8,9,10], [], 1, Mutability.Not⟩ 3 7)
          ⟨false, false, 16, 8, false⟩ = none) :=
  codegen_const_value_slice fxEmpty ⟨[1,2,3,4,5,6,7,8,9,10], [], 1, Mutability.Not⟩
    3 7 ⟨false, false, 16, 8, false⟩ rfl rfl (by norm_num [i64max]) (by norm_num [i64max])

/-! ### C6: the no-native-type scalar fallback -/

theorem leBytes_length (k n : Nat) : (leBytes k n).length = k := by
  induction k generalizing n with
  | zero => rfl
  | succ k ih => simp [leBytes, ih]

theorem write_target_uint_length (e : Endian) (size n : Nat) :
    (write_target_uint e size n).length = size := by
  cases e <;> simp [write_target_uint, leBytes_length]

/-- C6 counterexample: the synthesized scalar buffer IS inserted into the
dedup table under a real allocation id. Materializing the scalar `5` with a
16-byte no-native-type layout from a fresh `FunctionCx` registers the buffer
in the global allocation map under allocation id 0 and records the pair
`(0, data object 0)` in `anon_allocs` — contradicting "the synthesized buffer
is not inserted into the dedup table under a real allocation id". -/
theorem scalar_fallback_dedup_insertion_counterexample :
    (codegen_const_value fxEmpty (ConstValue.scalar (Scalar.int 5))
        ⟨false, false, 16, 16, false⟩).map
      (fun r => (r.2.constants_cx.anon_allocs,
        (alookup r.2.tcx.globalAllocs 0).isSome,
        r.2.constants_cx.todo)) =
      some ([(0, 0)], true, [TodoItem.Alloc 0]) := rfl

/-- C6 amended: for a scalar constant whose layout has no native cranelift
type, `codegen_const_value` materializes a buffer of exactly `layout.size`
bytes holding the scalar's bits in target-endian order at offset 0 and
returns a by-reference value to a newly declared anonymous data object; the
buffer is registered under a freshly created allocation id (never an id that
existed before), it IS recorded in the dedup table under that fresh id, and
because the allocation id and the data object are fresh on every call the
synthesized object is never shared with an earlier call site. -/
theorem codegen_const_value_scalar_fallback (fx : FunctionCx) (n : Nat)
    (layout : TyAndLayout)
    (hu : layout.isUnsized = false) (hz : layout.isZst = false)
    (hc : layout.hasClifType = false)
    (ha : alookup fx.constants_cx.anon_allocs fx.next_alloc_id = none)
    (hg : alookup fx.tcx.globalAllocs fx.next_alloc_id = none) :
    ∃ d fx1,
      codegen_const_value fx (ConstValue.scalar (Scalar.int n)) layout =
        some (CValue.by_ref ⟨PtrBase.dataAddr d, 0⟩ layout, fx1) ∧
      d = fx.module.nextId ∧
      (write_target_uint fx.tcx.endian layout.sizeBytes n).length = layout.sizeBytes ∧
      alookup fx1.tcx.globalAllocs fx.next_alloc_id =
        some (GlobalAlloc.Memory
          ⟨write_target_uint fx.tcx.endian layout.sizeBytes n, [],
            layout.alignPref, Mutability.Not⟩) ∧
      alookup fx1.constants_cx.anon_allocs fx.next_alloc_id = some d ∧
      fx1.constants_cx.todo = TodoItem.Alloc fx.next_alloc_id :: fx.constants_cx.todo ∧
      fx1.next_alloc_id = fx.next_alloc_id + 1 ∧
      fx1.module.nextId = fx.module.nextId + 1 := by
  refine ⟨fx.module.nextId,
    { fx with
        tcx := { fx.tcx with
          globalAllocs := fx.tcx.globalAllocs ++
            [(fx.next_alloc_id, GlobalAlloc.Memory
              ⟨write_target_uint fx.tcx.endian layout.sizeBytes n, [],
                layout.alignPref, Mutability.Not⟩)] },
        next_alloc_id := fx.next_alloc_id + 1,
        constants_cx := ⟨TodoItem.Alloc fx.next_alloc_id :: fx.constants_cx.todo,
          fx.constants_cx.done,
          fx.constants_cx.anon_allocs ++ [(fx.next_alloc_id, fx.module.nextId)]⟩,
        module := { fx.module with
          nextId := fx.module.nextId + 1,
          decls := fx.module.decls ++
            [(fx.module.nextId, ⟨none, Linkage.Local, false, false⟩)] } },
    ?_, rfl, write_target_uint_length _ _ _, ?_, ?_, rfl, rfl, rfl⟩
  · simp [codegen_const_value, hu, hz, hc, pointer_for_allocation, create_memory_alloc,
      scalar_alloc, data_id_for_alloc_id, ha, declare_anonymous_data]
  · rw [alookup_append_none _ hg]
    exact alookup_singleton _ _
  · rw [alookup_append_none _ ha]
    exact alookup_singleton _ _

/-- Witness for C6 amended, at the scalar `5` with a 16-byte layout. -/
theorem codegen_const_value_scalar_fallback_witness :
    ∃ d fx1,
      codegen_const_value fxEmpty (ConstValue.scalar (Scalar.int 5))
          ⟨false, false, 16, 16, false⟩ =
        some (CValue.by_ref ⟨PtrBase.dataAddr d, 0⟩ ⟨false, false, 16, 16, false⟩, fx1) ∧
      d = fxEmpty.module.nextId ∧
      (write_target_uint fxEmpty.tcx.endian 16 5).length = 16 ∧
      alookup fx1.tcx.globalAllocs fxEmpty.next_alloc_id =
        some (GlobalAlloc.Memory
          ⟨write_target_uint fxEmpty.tcx.endian 16 5, [], 16, Mutability.Not⟩) ∧
      alookup fx1.constants_cx.anon_allocs fxEmpty.next_alloc_id = some d ∧
      fx1.constants_cx.todo =
        TodoItem.Alloc fxEmpty.next_alloc_id :: fxEmpty.constants_cx.todo ∧
      fx1.next_alloc_id = fxEmpty.next_alloc_id + 1 ∧
      fx1.module.nextId = fxEmpty.module.nextId + 1 :=
  codegen_const_value_scalar_fallback fxEmpty 5 ⟨false, false, 16, 16, false⟩
    rfl rfl rfl rfl rfl

/-- C10 counterexample: a thread-local static that carries a linkage hint is
referenced through `codegen_static_ref` WITHOUT failing the assertion: the
handle `data_id_for_static` returns is the (non-thread-local) indirection
object, whose declared `tls` flag is `false`, so the `tls: false` assertion
passes and a place is returned. -/
theorem codegen_static_ref_tls_counterexample :
    infoTLSW.threadLocal = true ∧
    (codegen_static_ref ⟨tcxTLSW, mEmpty, ConstantCx.new, 0⟩ 3
        ⟨false, false, 8, 8, true⟩).isSome = true :=
  ⟨rfl, rfl⟩

/-- C10 amended: for a static without a source-level linkage hint,
`codegen_static_ref` fails an assertion (returns no place) whenever the
static is thread-local, and also asserts the layout is sized; when the static
is not thread-local and the layout is sized it returns the place at the
static's declared data object. A thread-local static is referenced through
the dedicated `codegen_tls_ref` entry point, which succeeds. (For a static
carrying a linkage hint the returned handle is the non-thread-local
indirection object, so the thread-local assertion does not fire; see the
counterexample.) -/
theorem codegen_static_ref_assertions (fx : FunctionCx) (did : DefId)
    (info : StaticInfo) (layout : TyAndLayout)
    (h1 : fx.tcx.staticInfo did = some info)
    (h2 : info.rlinkage = none)
    (h3 : findNamedAux fx.module.decls info.symbolName = none)
    (h4 : alookup fx.module.decls fx.module.nextId = none) :
    (info.threadLocal = true → codegen_static_ref fx did layout = none) ∧
    (layout.isUnsized = true → codegen_static_ref fx did layout = none) ∧
    (info.threadLocal = false → layout.isUnsized = false →
      codegen_static_ref fx did layout =
        some (⟨⟨PtrBase.dataAddr fx.module.nextId, 0⟩, layout⟩,
          { fx with module := { fx.module with
              nextId := fx.module.nextId + 1,
              decls := fx.module.decls ++
                [(fx.module.nextId, ⟨some info.symbolName, Linkage.Import,
                  info.isMutableStatic || !info.isFreeze, info.threadLocal⟩)] } })) ∧
    (codegen_tls_ref fx did layout).isSome = true := by
  have hsd : data_id_for_static fx.tcx fx.module did false =
      some (fx.module.nextId,
        { fx.module with
            nextId := fx.module.nextId + 1,
            decls := fx.module.decls ++
              [(fx.module.nextId, ⟨some info.symbolName, Linkage.Import,
                info.isMutableStatic || !info.isFreeze, info.threadLocal⟩)] }) := by
    simp [data_id_for_static, h1, h2, declare_data, h3]
  have hdecl : alookup (fx.module.decls ++
      [(fx.module.nextId, (⟨some info.symbolName, Linkage.Import,
        info.isMutableStatic || !info.isFreeze, info.threadLocal⟩ : DataDecl))])
      fx.module.nextId =
      some ⟨some info.symbolName, Linkage.Import,
        info.isMutableStatic || !info.isFreeze, info.threadLocal⟩ := by
    rw [alookup_append_none _ h4]
    exact alookup_singleton _ _
  refine ⟨?_, ?_, ?_, ?_⟩
  · intro ht
    rw [ht] at hsd hdecl
    cases hL : layout.isUnsized with
    | true => simp [codegen_static_ref, hsd, hL]
    | false => simp [codegen_static_ref, hsd, hdecl, hL]
  · intro hun
    simp [codegen_static_ref, hsd, hun]
  · intro ht hun
    rw [ht] at hsd hdecl
    simp [codegen_static_ref, hsd, hdecl, ht, hun]
  · simp [codegen_tls_ref, hsd]

/-- Witness for C10 amended: a plain thread-local static (no linkage hint)
makes `codegen_static_ref` fail its assertion, while `codegen_tls_ref`
succeeds. -/
theorem codegen_static_ref_assertions_witness :
    codegen_static_ref fxTLS 3 ⟨false, false, 8, 8, true⟩ = none ∧
    (codegen_tls_ref fxTLS 3 ⟨false, false, 8, 8, true⟩).isSome = true :=
  ⟨(codegen_static_ref_assertions fxTLS 3 infoTLS
      ⟨false, false, 8, 8, true⟩ rfl rfl rfl rfl).1 rfl,
    (codegen_static_ref_assertions fxTLS 3 infoTLS
      ⟨false, false, 8, 8, true⟩ rfl rfl rfl rfl).2.2.2⟩

/-! ### The relocation scan: case analysis and extension lemmas -/

/-- Exhaustive description of one successful `process_reloc` step. -/
theorem process_reloc_cases (tcx : Tcx) (alloc : Allocation)
    (st : ConstantCx × ModuleState × DataDescription) (r : Nat × AllocId)
    (st' : ConstantCx × ModuleState × DataDescription)
    (h : process_reloc tcx alloc st r = some st') :
    r.1 + tcx.ptrSize ≤ alloc.bytes.length ∧
    ((∃ inst, tcx.getGlobalAlloc r.2 = some (GlobalAlloc.Function inst) ∧
        read_target_uint tcx.endian ((alloc.bytes.drop r.1).take tcx.ptrSize) = 0 ∧
        st' = (st.1, (import_function st.2.1 inst).2,
          { st.2.2 with funcRelocs := st.2.2.funcRelocs ++ [(r.1, inst)] })) ∨
      (∃ target_alloc, tcx.getGlobalAlloc r.2 = some (GlobalAlloc.Memory target_alloc) ∧
        st' = ((data_id_for_alloc_id { st.1 with todo := TodoItem.Alloc r.2 :: st.1.todo }
            st.2.1 r.2 target_alloc.mutability).2.1,
          (data_id_for_alloc_id { st.1 with todo := TodoItem.Alloc r.2 :: st.1.todo }
            st.2.1 r.2 target_alloc.mutability).2.2,
          { st.2.2 with dataRelocs := st.2.2.dataRelocs ++
            [(r.1,
              (data_id_for_alloc_id { st.1 with todo := TodoItem.Alloc r.2 :: st.1.todo }
                st.2.1 r.2 target_alloc.mutability).1,
              i64_of_u64 (read_target_uint tcx.endian
                ((alloc.bytes.drop r.1).take tcx.ptrSize)))] })) ∨
      (∃ did info d m2, tcx.getGlobalAlloc r.2 = some (GlobalAlloc.Static did) ∧
        tcx.staticInfo did = some info ∧ info.threadLocal = false ∧
        data_id_for_static tcx st.2.1 did false = some (d, m2) ∧
        st' = (st.1, m2,
          { st.2.2 with dataRelocs := st.2.2.dataRelocs ++
            [(r.1, d, i64_of_u64 (read_target_uint tcx.endian
              ((alloc.bytes.drop r.1).take tcx.ptrSize)))] }))) := by
  simp only [process_reloc] at h
  split at h
  case isFalse => exact absurd h (by simp)
  case isTrue hb =>
    refine ⟨hb, ?_⟩
    split at h
    · exact absurd h (by simp)
    · rename_i inst heq
      split at h
      · rename_i haddend
        cases h
        exact Or.inl ⟨inst, heq, haddend, rfl⟩
      · exact absurd h (by simp)
    · rename_i target_alloc heq
      cases h
      exact Or.inr (Or.inl ⟨target_alloc, heq, rfl⟩)
    · rename_i did heq
      split at h
      · exact absurd h (by simp)
      · rename_i info hinfo
        split at h
        · exact absurd h (by simp)
        · rename_i htls
          split at h
          · exact absurd h (by simp)
          · rename_i d m2 hds
            cases h
            exact Or.inr (Or.inr ⟨did, info, d, m2, heq, hinfo, by simpa using htls, hds, rfl⟩)

theorem declare_data_extends (m : ModuleState) (name : String) (linkage : Linkage)
    (w t : Bool) :
    (∃ ext, (declare_data m name linkage w t).2.decls = m.decls ++ ext) ∧
    (declare_data m name linkage w t).2.defs = m.defs ∧
    (declare_data m name linkage w t).2.funcs = m.funcs ∧
    m.nextId ≤ (declare_data m name linkage w t).2.nextId := by
  unfold declare_data
  cases hf : findNamedAux m.decls name with
  | some d => exact ⟨⟨[], by simp⟩, rfl, rfl, le_refl _⟩
  | none => exact ⟨⟨_, rfl⟩, rfl, rfl, Nat.le_succ _⟩

theorem data_id_for_alloc_id_extends (cx : ConstantCx) (m : ModuleState)
    (aid : AllocId) (mu : Mutability) :
    (data_id_for_alloc_id cx m aid mu).2.1.todo = cx.todo ∧
    (data_id_for_alloc_id cx m aid mu).2.1.done = cx.done ∧
    (∃ ext, (data_id_for_alloc_id cx m aid mu).2.1.anon_allocs =
      cx.anon_allocs ++ ext) ∧
    (∃ ext, (data_id_for_alloc_id cx m aid mu).2.2.decls = m.decls ++ ext) ∧
    (data_id_for_alloc_id cx m aid mu).2.2.defs = m.defs ∧
    (data_id_for_alloc_id cx m aid mu).2.2.funcs = m.funcs ∧
    m.nextId ≤ (data_id_for_alloc_id cx m aid mu).2.2.nextId := by
  unfold data_id_for_alloc_id
  cases hf : alookup cx.anon_allocs aid with
  | some d =>
      exact ⟨rfl, rfl, ⟨[], by simp⟩, ⟨[], by simp⟩, rfl, rfl, le_refl _⟩
  | none =>
      exact ⟨rfl, rfl, ⟨_, rfl⟩, ⟨_, rfl⟩, rfl, rfl, Nat.le_succ _⟩

theorem data_id_for_static_extends (tcx : Tcx) (m : ModuleState) (did : DefId)
    (definition : Bool) (d : DataId) (m2 : ModuleState)
    (h : data_id_for_static tcx m did definition = some (d, m2)) :
    (∃ ext, m2.decls = m.decls ++ ext) ∧
    (∃ ext, m2.defs = m.defs ++ ext) ∧
    m2.funcs = m.funcs ∧
    m.nextId ≤ m2.nextId := by
  simp only [data_id_for_static] at h
  split at h
  · exact absurd h (by simp)
  · rename_i info hinfo
    rcases hR1 : declare_data m info.symbolName
        (if definition = true then info.defLinkage
          else if info.rlinkage = some RLinkage.ExtWeak ∨ info.rlinkage = some RLinkage.WeakAny
          then Linkage.Preemptible else Linkage.Import)
        (info.isMutableStatic || !info.isFreeze) info.threadLocal with ⟨d1, mA⟩
    rw [hR1] at h
    have hA := declare_data_extends m info.symbolName
      (if definition = true then info.defLinkage
        else if info.rlinkage = some RLinkage.ExtWeak ∨ info.rlinkage = some RLinkage.WeakAny
        then Linkage.Preemptible else Linkage.Import)
      (info.isMutableStatic || !info.isFreeze) info.threadLocal
    rw [hR1] at hA
    obtain ⟨⟨e1, hdecls1⟩, hdefs1, hfuncs1, hnext1⟩ := hA
    simp only at hdecls1 hdefs1 hfuncs1 hnext1
    split at h
    · rcases hR2 : declare_data mA ("_rust_extern_with_linkage_" ++ info.symbolName)
          Linkage.Local false false with ⟨d2, mB⟩
      rw [hR2] at h
      have hB := declare_data_extends mA ("_rust_extern_with_linkage_" ++ info.symbolName)
        Linkage.Local false false
      rw [hR2] at hB
      obtain ⟨⟨e2, hdecls2⟩, hdefs2, hfuncs2, hnext2⟩ := hB
      simp only at hdecls2 hdefs2 hfuncs2 hnext2
      split at h
      · rename_i hdup
        injection h with h'
        injection h' with h1 h2
        subst h1
        subst h2
        exact ⟨⟨e1 ++ e2, by rw [hdecls2, hdecls1, List.append_assoc]⟩,
          ⟨[], by simp [hdefs2, hdefs1]⟩, by rw [hfuncs2, hfuncs1],
          le_trans hnext1 hnext2⟩
      · exact absurd h (by simp)
      · rename_i m3 hdef
        injection h with h'
        injection h' with h1 h2
        subst h1
        subst h2
        unfold define_data at hdef
        split at hdef
        · exact absurd hdef (by simp)
        · injection hdef with hdef'
          subst hdef'
          refine ⟨⟨e1 ++ e2, by rw [hdecls2, hdecls1, List.append_assoc]⟩,
            ⟨_, by rw [hdefs2, hdefs1]⟩, by rw [hfuncs2, hfuncs1],
            le_trans hnext1 hnext2⟩
    · injection h with h'
      injection h' with h1 h2
      subst h1
      subst h2
      exact ⟨⟨e1, hdecls1⟩, ⟨[], by simp [hdefs1]⟩, hfuncs1, hnext1⟩

theorem import_function_extends (m : ModuleState) (inst : FuncId) :
    (import_function m inst).2.decls = m.decls ∧
    (import_function m inst).2.defs = m.defs ∧
    (import_function m inst).2.nextId = m.nextId := by
  unfold import_function
  exact ⟨rfl, rfl, rfl⟩

/-- Uniform shape of one successful relocation-scan step: the done set is
untouched, all tables grow append-only, at most one `Alloc` work item is
pushed, and the `DataContext` relocation lists grow append-only. -/
theorem process_reloc_extends (tcx : Tcx) (alloc : Allocation)
    (st : ConstantCx × ModuleState × DataDescription) (r : Nat × AllocId)
    (st' : ConstantCx × ModuleState × DataDescription)
    (h : process_reloc tcx alloc st r = some st') :
    st'.1.done = st.1.done ∧
    (∃ ext, st'.1.anon_allocs = st.1.anon_allocs ++ ext) ∧
    (∃ ext, st'.2.1.decls = st.2.1.decls ++ ext) ∧
    (∃ ext, st'.2.1.defs = st.2.1.defs ++ ext) ∧
    st.2.1.nextId ≤ st'.2.1.nextId ∧
    (∃ push, st'.1.todo = push ++ st.1.todo ∧ push.length ≤ 1 ∧
      ∀ it ∈ push, ∃ aid, it = TodoItem.Alloc aid ∧ isMemoryTarget tcx aid = true) ∧
    (∃ ext, st'.2.2.dataRelocs = st.2.2.dataRelocs ++ ext) ∧
    (∃ ext, st'.2.2.funcRelocs = st.2.2.funcRelocs ++ ext) ∧
    st'.2.2.bytes = st.2.2.bytes := by
  obtain ⟨hb, hcases⟩ := process_reloc_cases tcx alloc st r st' h
  rcases hcases with ⟨inst, heq, haddend, rfl⟩ | ⟨ta, heq, rfl⟩ |
    ⟨did, info, d, m2, heq, hinfo, htls, hds, rfl⟩
  · refine ⟨rfl, ⟨[], by simp⟩, ⟨[], by simp [import_function]⟩,
      ⟨[], by simp [import_function]⟩, by simp [import_function],
      ⟨[], by simp⟩, ⟨[], by simp⟩, ⟨_, rfl⟩, rfl⟩
  · obtain ⟨ht, hd, ⟨ea, ha⟩, ⟨ed, hdc⟩, hdefs, hfuncs, hnext⟩ :=
      data_id_for_alloc_id_extends
        { st.1 with todo := TodoItem.Alloc r.2 :: st.1.todo } st.2.1 r.2 ta.mutability
    refine ⟨hd, ⟨ea, ha⟩, ⟨ed, hdc⟩, ⟨[], by simp [hdefs]⟩, hnext,
      ⟨[TodoItem.Alloc r.2], ?_, by simp, ?_⟩, ⟨_, rfl⟩, ⟨[], by simp⟩, rfl⟩
    · rw [ht]
      rfl
    · intro it hit
      simp only [List.mem_singleton] at hit
      subst hit
      exact ⟨r.2, rfl, by simp [isMemoryTarget, heq]⟩
  · obtain ⟨⟨e1, hdc⟩, ⟨e2, hdf⟩, hfu, hnext⟩ :=
      data_id_for_static_extends tcx st.2.1 did false d m2 hds
    exact ⟨rfl, ⟨[], by simp⟩, ⟨e1, hdc⟩, ⟨e2, hdf⟩, hnext,
      ⟨[], by simp⟩, ⟨_, rfl⟩, ⟨[], by simp⟩, rfl⟩

/-- Decompose a successful scan of `r :: rest`. -/
theorem process_relocs_cons (tcx : Tcx) (alloc : Allocation) (r : Nat × AllocId)
    (rest : List (Nat × AllocId)) (st out : ConstantCx × ModuleState × DataDescription)
    (h : process_relocs tcx alloc (r :: rest) st = some out) :
    ∃ st2, process_reloc tcx alloc st r = some st2 ∧
      process_relocs tcx alloc rest st2 = some out := by
  unfold process_relocs at h
  split at h
  · exact absurd h (by simp)
  · rename_i st2 h2
    exact ⟨st2, h2, h⟩

/-- The whole relocation scan also only extends state. -/
theorem process_relocs_extends (tcx : Tcx) (alloc : Allocation) :
    ∀ (rs : List (Nat × AllocId)) (st out : ConstantCx × ModuleState × DataDescription),
    process_relocs tcx alloc rs st = some out →
    out.1.done = st.1.done ∧
    (∃ ext, out.1.anon_allocs = st.1.anon_allocs ++ ext) ∧
    (∃ ext, out.2.1.decls = st.2.1.decls ++ ext) ∧
    (∃ ext, out.2.1.defs = st.2.1.defs ++ ext) ∧
    st.2.1.nextId ≤ out.2.1.nextId ∧
    (∃ push, out.1.todo = push ++ st.1.todo ∧ push.length ≤ rs.length ∧
      ∀ it ∈ push, ∃ aid, it = TodoItem.Alloc aid ∧ isMemoryTarget tcx aid = true) ∧
    (∃ ext, out.2.2.dataRelocs = st.2.2.dataRelocs ++ ext) ∧
    (∃ ext, out.2.2.funcRelocs = st.2.2.funcRelocs ++ ext) ∧
    out.2.2.bytes = st.2.2.bytes := by
  intro rs
  induction rs with
  | nil =>
      intro st out h
      unfold process_relocs at h
      cases h
      exact ⟨rfl, ⟨[], by simp⟩, ⟨[], by simp⟩, ⟨[], by simp⟩, le_refl _,
        ⟨[], by simp⟩, ⟨[], by simp⟩, ⟨[], by simp⟩, rfl⟩
  | cons r rest ih =>
      intro st out h
      obtain ⟨st2, h2, hrest⟩ := process_relocs_cons tcx alloc r rest st out h
      obtain ⟨d1, ⟨a1, ha1⟩, ⟨c1, hc1⟩, ⟨f1, hf1⟩, n1, ⟨p1, hp1, hl1, hal1⟩,
        ⟨dr1, hdr1⟩, ⟨fr1, hfr1⟩, hb1⟩ := process_reloc_extends tcx alloc st r st2 h2
      obtain ⟨d2, ⟨a2, ha2⟩, ⟨c2, hc2⟩, ⟨f2, hf2⟩, n2, ⟨p2, hp2, hl2, hal2⟩,
        ⟨dr2, hdr2⟩, ⟨fr2, hfr2⟩, hb2⟩ := ih st2 out hrest
      refine ⟨d2.trans d1, ⟨a1 ++ a2, by simp [ha2, ha1]⟩,
        ⟨c1 ++ c2, by simp [hc2, hc1]⟩, ⟨f1 ++ f2, by simp [hf2, hf1]⟩,
        le_trans n1 n2, ⟨p2 ++ p1, by simp [hp2, hp1], ?_, ?_⟩,
        ⟨dr1 ++ dr2, by simp [hdr2, hdr1]⟩, ⟨fr1 ++ fr2, by simp [hfr2, hfr1]⟩,
        hb2.trans hb1⟩
      · simp only [List.length_append, List.length_cons]
        omega
      · intro it hit
        rcases List.mem_append.mp hit with h' | h'
        · exact hal2 it h'
        · exact hal1 it h'

/-! ### C8 and C3: relocation addends, TLS rejection, static reloc policy -/

/-- A relocation on a function target with a non-zero stored addend makes the
scan step fail the `assert_eq!(addend, 0)`. -/
theorem process_reloc_fn_nonzero (tcx : Tcx) (alloc : Allocation)
    (st : ConstantCx × ModuleState × DataDescription) (r : Nat × AllocId)
    (inst : FuncId)
    (heq : tcx.getGlobalAlloc r.2 = some (GlobalAlloc.Function inst))
    (hnz : read_target_uint tcx.endian ((alloc.bytes.drop r.1).take tcx.ptrSize) ≠ 0) :
    process_reloc tcx alloc st r = none := by
  simp only [process_reloc, heq]
  split <;> simp [hnz]

/-- A relocation on a thread-local static target makes the scan step raise
the fatal error. -/
theorem process_reloc_tls (tcx : Tcx) (alloc : Allocation)
    (st : ConstantCx × ModuleState × DataDescription) (r : Nat × AllocId)
    (did : DefId) (info : StaticInfo)
    (heq : tcx.getGlobalAlloc r.2 = some (GlobalAlloc.Static did))
    (hinfo : tcx.staticInfo did = some info)
    (htls : info.threadLocal = true) :
    process_reloc tcx alloc st r = none := by
  simp only [process_reloc, heq, hinfo, htls]
  split <;> rfl

/-- If one relocation in the table always fails, the whole scan fails. -/
theorem process_relocs_none (tcx : Tcx) (alloc : Allocation) (r : Nat × AllocId)
    (hfail : ∀ st, process_reloc tcx alloc st r = none) :
    ∀ rs st, r ∈ rs → process_relocs tcx alloc rs st = none := by
  intro rs
  induction rs with
  | nil => intro st h; simp at h
  | cons a rest ih =>
      intro st hmem
      unfold process_relocs
      rcases List.mem_cons.mp hmem with rfl | hmem'
      · rw [hfail st]
      · cases hpr : process_reloc tcx alloc st a with
        | none => rfl
        | some st2 => exact ih st2 hmem'

theorem declare_data_finds (m : ModuleState) (name : String) (linkage : Linkage)
    (w t : Bool) :
    findNamedAux (declare_data m name linkage w t).2.decls name =
      some (declare_data m name linkage w t).1 := by
  unfold declare_data
  cases hf : findNamedAux m.decls name with
  | some d => simpa using hf
  | none =>
      simp only
      rw [findNamedAux_append_none _ hf]
      simp [findNamedAux]

/-- A successful `data_id_for_static` call leaves the static's symbol
declared. -/
theorem data_id_for_static_declares (tcx : Tcx) (m : ModuleState) (did : DefId)
    (definition : Bool) (d : DataId) (m2 : ModuleState) (info : StaticInfo)
    (hinfo : tcx.staticInfo did = some info)
    (h : data_id_for_static tcx m did definition = some (d, m2)) :
    ∃ dd, findNamedAux m2.decls info.symbolName = some dd := by
  simp only [data_id_for_static, hinfo] at h
  split at h
  · rcases hR2 : declare_data
        (declare_data m info.symbolName
          (if definition = true then info.defLinkage
            else if info.rlinkage = some RLinkage.ExtWeak ∨
                info.rlinkage = some RLinkage.WeakAny
            then Linkage.Preemptible else Linkage.Import)
          (info.isMutableStatic || !info.isFreeze) info.threadLocal).2
        ("_rust_extern_with_linkage_" ++ info.symbolName) Linkage.Local false false
      with ⟨d2, mB⟩
    have hfind := declare_data_finds m info.symbolName
      (if definition = true then info.defLinkage
        else if info.rlinkage = some RLinkage.ExtWeak ∨
            info.rlinkage = some RLinkage.WeakAny
        then Linkage.Preemptible else Linkage.Import)
      (info.isMutableStatic || !info.isFreeze) info.threadLocal
    have hB := declare_data_extends
      (declare_data m info.symbolName
        (if definition = true then info.defLinkage
          else if info.rlinkage = some RLinkage.ExtWeak ∨
              info.rlinkage = some RLinkage.WeakAny
          then Linkage.Preemptible else Linkage.Import)
        (info.isMutableStatic || !info.isFreeze) info.threadLocal).2
      ("_rust_extern_with_linkage_" ++ info.symbolName) Linkage.Local false false
    rw [hR2] at h hB
    obtain ⟨⟨e2, hdecls2⟩, -, -, -⟩ := hB
    simp only at hdecls2
    have hfind2 : findNamedAux mB.decls info.symbolName =
        some (declare_data m info.symbolName
          (if definition = true then info.defLinkage
            else if info.rlinkage = some RLinkage.ExtWeak ∨
                info.rlinkage = some RLinkage.WeakAny
            then Linkage.Preemptible else Linkage.Import)
          (info.isMutableStatic || !info.isFreeze) info.threadLocal).1 := by
      rw [hdecls2]
      exact findNamedAux_append_some _ hfind
    split at h
    · injection h with h'
      injection h' with h1 h2
      subst h2
      exact ⟨_, hfind2⟩
    · exact absurd h (by simp)
    · rename_i m3 hdef
      injection h with h'
      injection h' with h1 h2
      subst h2
      unfold define_data at hdef
      split at hdef
      · exact absurd hdef (by simp)
      · injection hdef with hdef'
        subst hdef'
        exact ⟨_, hfind2⟩
  · injection h with h'
    injection h' with h1 h2
    subst h2
    exact ⟨_, declare_data_finds m info.symbolName _ _ _⟩

/-- Without a linkage hint, a declare-only `data_id_for_static` call writes
no definition. -/
theorem data_id_for_static_no_hint_defs (tcx : Tcx) (m : ModuleState)
    (did : DefId) (definition : Bool) (d : DataId) (m2 : ModuleState)
    (info : StaticInfo)
    (hinfo : tcx.staticInfo did = some info) (hrl : info.rlinkage = none)
    (h : data_id_for_static tcx m did definition = some (d, m2)) :
    m2.defs = m.defs := by
  simp only [data_id_for_static, hinfo, hrl] at h
  simp only [Option.isSome_none, Bool.false_eq_true, if_false] at h
  injection h with h'
  injection h' with h1 h2
  subst h2
  exact (declare_data_extends m info.symbolName _ _ _).2.1

/-- On a successful scan, every relocation's recorded addend is the
pointer-sized integer decoded from the raw bytes at the relocation's offset;
function targets require that integer to be zero. -/
theorem process_relocs_addend_spec (tcx : Tcx) (alloc : Allocation) :
    ∀ (rs : List (Nat × AllocId)) (st out : ConstantCx × ModuleState × DataDescription),
    process_relocs tcx alloc rs st = some out →
    ∀ r ∈ rs,
      (∀ inst, tcx.getGlobalAlloc r.2 = some (GlobalAlloc.Function inst) →
        read_target_uint tcx.endian ((alloc.bytes.drop r.1).take tcx.ptrSize) = 0 ∧
        (r.1, inst) ∈ out.2.2.funcRelocs) ∧
      (∀ ta, tcx.getGlobalAlloc r.2 = some (GlobalAlloc.Memory ta) →
        ∃ d, (r.1, d, i64_of_u64 (read_target_uint tcx.endian
          ((alloc.bytes.drop r.1).take tcx.ptrSize))) ∈ out.2.2.dataRelocs) ∧
      (∀ did, tcx.getGlobalAlloc r.2 = some (GlobalAlloc.Static did) →
        ∃ d, (r.1, d, i64_of_u64 (read_target_uint tcx.endian
          ((alloc.bytes.drop r.1).take tcx.ptrSize))) ∈ out.2.2.dataRelocs) := by
  intro rs
  induction rs with
  | nil => intro st out h r hr; simp at hr
  | cons a rest ih =>
      intro st out h r hr
      obtain ⟨st2, ha, hrest⟩ := process_relocs_cons tcx alloc a rest st out h
      obtain ⟨-, -, -, -, -, -, ⟨edr, hedr⟩, ⟨efr, hefr⟩, -⟩ :=
        process_relocs_extends tcx alloc rest st2 out hrest
      obtain ⟨hb, hcase⟩ := process_reloc_cases tcx alloc st a st2 ha
      rcases List.mem_cons.mp hr with rfl | hr'
      · refine ⟨?_, ?_, ?_⟩
        · intro inst heq
          rcases hcase with ⟨i0, heq0, hz0, rfl⟩ | ⟨ta0, heq0, rfl⟩ |
            ⟨did0, info0, d0, m20, heq0, hinfo0, htls0, hds0, rfl⟩
          · rw [heq0] at heq
            injection heq with heq'
            injection heq' with heq2
            subst heq2
            refine ⟨hz0, ?_⟩
            rw [hefr]
            exact List.mem_append_left _ (List.mem_append_right _ (by simp))
          · rw [heq0] at heq
            exact absurd heq (by simp)
          · rw [heq0] at heq
            exact absurd heq (by simp)
        · intro ta heq
          rcases hcase with ⟨i0, heq0, hz0, rfl⟩ | ⟨ta0, heq0, rfl⟩ |
            ⟨did0, info0, d0, m20, heq0, hinfo0, htls0, hds0, rfl⟩
          · rw [heq0] at heq
            exact absurd heq (by simp)
          · refine ⟨(data_id_for_alloc_id
                { st.1 with todo := TodoItem.Alloc r.2 :: st.1.todo }
                st.2.1 r.2 ta0.mutability).1, ?_⟩
            rw [hedr]
            exact List.mem_append_left _ (List.mem_append_right _ (by simp))
          · rw [heq0] at heq
            exact absurd heq (by simp)
        · intro did heq
          rcases hcase with ⟨i0, heq0, hz0, rfl⟩ | ⟨ta0, heq0, rfl⟩ |
            ⟨did0, info0, d0, m20, heq0, hinfo0, htls0, hds0, rfl⟩
          · rw [heq0] at heq
            exact absurd heq (by simp)
          · rw [heq0] at heq
            exact absurd heq (by simp)
          · refine ⟨d0, ?_⟩
            rw [hedr]
            exact List.mem_append_left _ (List.mem_append_right _ (by simp))
      · exact ih st2 out hrest r hr'

/-- Every static target scanned successfully ends up declared. -/
theorem process_relocs_static_declared (tcx : Tcx) (alloc : Allocation) :
    ∀ (rs : List (Nat × AllocId)) (st out : ConstantCx × ModuleState × DataDescription),
    process_relocs tcx alloc rs st = some out →
    ∀ r ∈ rs, ∀ did info,
      tcx.getGlobalAlloc r.2 = some (GlobalAlloc.Static did) →
      tcx.staticInfo did = some info →
      ∃ dd, findNamedAux out.2.1.decls info.symbolName = some dd := by
  intro rs
  induction rs with
  | nil => intro st out h r hr; simp at hr
  | cons a rest ih =>
      intro st out h r hr did info heq hinfo
      obtain ⟨st2, ha, hrest⟩ := process_relocs_cons tcx alloc a rest st out h
      obtain ⟨-, -, ⟨ec, hec⟩, -, -, -, -, -, -⟩ :=
        process_relocs_extends tcx alloc rest st2 out hrest
      obtain ⟨hb, hcase⟩ := process_reloc_cases tcx alloc st a st2 ha
      rcases List.mem_cons.mp hr with rfl | hr'
      · rcases hcase with ⟨i0, heq0, hz0, rfl⟩ | ⟨ta0, heq0, rfl⟩ |
          ⟨did0, info0, d0, m20, heq0, hinfo0, htls0, hds0, rfl⟩
        · rw [heq0] at heq
          exact absurd heq (by simp)
        · rw [heq0] at heq
          exact absurd heq (by simp)
        · rw [heq0] at heq
          injection heq with heq'
          injection heq' with heq2
          subst heq2
          rw [hinfo0] at hinfo
          injection hinfo with hinfo'
          subst hinfo'
          obtain ⟨dd, hdd⟩ :=
            data_id_for_static_declares tcx st.2.1 _ false d0 m20 _ hinfo0 hds0
          refine ⟨dd, ?_⟩
          rw [hec]
          exact findNamedAux_append_some _ hdd
      · exact ih st2 out hrest r hr' did info heq hinfo

/-- When no scanned static target carries a linkage hint, the scan writes no
definition into the module: static handles are obtained declare-only. -/
theorem process_relocs_no_hint_defs (tcx : Tcx) (alloc : Allocation) :
    ∀ (rs : List (Nat × AllocId)) (st out : ConstantCx × ModuleState × DataDescription),
    process_relocs tcx alloc rs st = some out →
    (∀ r ∈ rs, ∀ did info,
      tcx.getGlobalAlloc r.2 = some (GlobalAlloc.Static did) →
      tcx.staticInfo did = some info → info.rlinkage = none) →
    out.2.1.defs = st.2.1.defs := by
  intro rs
  induction rs with
  | nil =>
      intro st out h hall
      unfold process_relocs at h
      cases h
      rfl
  | cons a rest ih =>
      intro st out h hall
      obtain ⟨st2, ha, hrest⟩ := process_relocs_cons tcx alloc a rest st out h
      obtain ⟨hb, hcase⟩ := process_reloc_cases tcx alloc st a st2 ha
      have htail : out.2.1.defs = st2.2.1.defs :=
        ih st2 out hrest (fun r hr => hall r (List.mem_cons_of_mem _ hr))
      rw [htail]
      rcases hcase with ⟨i0, heq0, hz0, rfl⟩ | ⟨ta0, heq0, rfl⟩ |
        ⟨did0, info0, d0, m20, heq0, hinfo0, htls0, hds0, rfl⟩
      · simp [import_function]
      · exact (data_id_for_alloc_id_extends
          { st.1 with todo := TodoItem.Alloc a.2 :: st.1.todo }
          st.2.1 a.2 ta0.mutability).2.2.2.2.1
      · exact data_id_for_static_no_hint_defs tcx st.2.1 did0 false d0 m20 info0
          hinfo0 (hall a (List.mem_cons_self a rest) did0 info0 heq0 hinfo0) hds0

/-- C8: for every relocation scanned out of a materialized buffer, the addend
is the pointer-sized integer read from the raw bytes at the relocation's
offset using the target's endianness. On a successful scan, memory and static
targets record exactly that integer (cast `u64 → i64`) as the relocation
addend, and every function target's integer is zero with a plain function
address recorded; a function target whose stored integer is non-zero makes
the scan fail (assertion failure) rather than emit a relocation. -/
theorem define_all_allocs_reloc_addend (tcx : Tcx) (alloc : Allocation)
    (rs : List (Nat × AllocId)) (st : ConstantCx × ModuleState × DataDescription) :
    (∀ out, process_relocs tcx alloc rs st = some out →
      ∀ r ∈ rs,
        (∀ inst, tcx.getGlobalAlloc r.2 = some (GlobalAlloc.Function inst) →
          read_target_uint tcx.endian ((alloc.bytes.drop r.1).take tcx.ptrSize) = 0 ∧
          (r.1, inst) ∈ out.2.2.funcRelocs) ∧
        (∀ ta, tcx.getGlobalAlloc r.2 = some (GlobalAlloc.Memory ta) →
          ∃ d, (r.1, d, i64_of_u64 (read_target_uint tcx.endian
            ((alloc.bytes.drop r.1).take tcx.ptrSize))) ∈ out.2.2.dataRelocs) ∧
        (∀ did, tcx.getGlobalAlloc r.2 = some (GlobalAlloc.Static did) →
          ∃ d, (r.1, d, i64_of_u64 (read_target_uint tcx.endian
            ((alloc.bytes.drop r.1).take tcx.ptrSize))) ∈ out.2.2.dataRelocs)) ∧
    (∀ r ∈ rs, ∀ inst, tcx.getGlobalAlloc r.2 = some (GlobalAlloc.Function inst) →
      read_target_uint tcx.endian ((alloc.bytes.drop r.1).take tcx.ptrSize) ≠ 0 →
      process_relocs tcx alloc rs st = none) :=
  ⟨fun out h => process_relocs_addend_spec tcx alloc rs st out h,
   fun r hr inst heq hnz =>
     process_relocs_none tcx alloc r
       (fun st2 => process_reloc_fn_nonzero tcx alloc st2 r inst heq hnz) rs st hr⟩

/-- Witness for C8: on `alloc8` the scan succeeds, reads addend 0 for the
function target and records addend 9 for the memory target; on `alloc8b` the
function target's stored integer is 3 ≠ 0 and the scan fails. -/
theorem define_all_allocs_reloc_addend_witness :
    (∃ out, process_relocs tcx8 alloc8 alloc8.relocs
        (ConstantCx.new, mEmpty, ⟨8, none, alloc8.bytes, [], []⟩) = some out ∧
      read_target_uint tcx8.endian ((alloc8.bytes.drop 0).take tcx8.ptrSize) = 0 ∧
      ((0 : Nat), (5 : FuncId)) ∈ out.2.2.funcRelocs ∧
      ∃ d, ((1 : Nat), d, i64_of_u64 9) ∈ out.2.2.dataRelocs) ∧
    process_relocs tcx8 alloc8b alloc8b.relocs
      (ConstantCx.new, mEmpty, ⟨8, none, alloc8b.bytes, [], []⟩) = none := by
  constructor
  · have h := (define_all_allocs_reloc_addend tcx8 alloc8 alloc8.relocs
      (ConstantCx.new, mEmpty, ⟨8, none, alloc8.bytes, [], []⟩)).1 _ rfl
    refine ⟨_, rfl, (h (0, 40) (by simp [alloc8]) |>.1 5 rfl).1,
      (h (0, 40) (by simp [alloc8]) |>.1 5 rfl).2, ?_⟩
    exact h (1, 41) (by simp [alloc8]) |>.2.1 ⟨[], [], 1, Mutability.Not⟩ rfl
  · exact (define_all_allocs_reloc_addend tcx8 alloc8b alloc8b.relocs
      (ConstantCx.new, mEmpty, ⟨8, none, alloc8b.bytes, [], []⟩)).2
      (0, 40) (by simp [alloc8b]) 5 rfl (by decide)

/-- C3: when the relocation scan of a non-thread-local memory object
encounters a relocation targeting a thread-local static, the engine raises
the fatal user-reported error and the object's emission is aborted — its
bytes are never written (`define_one` never reaches `define_data`). For a
non-thread-local static target the scan only declares: no `Static` work item
is ever pushed (all pushed items are `Alloc` items), the static's symbol is
declared afterwards, and (when the scanned static targets carry no linkage
hint) the module's definitions are untouched by the scan. -/
theorem reloc_thread_local_and_static_policy (tcx : Tcx) (alloc : Allocation) :
    (∀ (cx : ConstantCx) (m : ModuleState) (data_id : DataId)
        (section_name : Option String) (r : Nat × AllocId) (did : DefId)
        (info : StaticInfo),
      r ∈ alloc.relocs →
      tcx.getGlobalAlloc r.2 = some (GlobalAlloc.Static did) →
      tcx.staticInfo did = some info → info.threadLocal = true →
      data_id ∉ cx.done →
      define_one tcx cx m data_id alloc section_name = StepOut.fatal) ∧
    (∀ st out, process_relocs tcx alloc alloc.relocs st = some out →
      (∀ it ∈ out.1.todo, it ∈ st.1.todo ∨ ∃ aid, it = TodoItem.Alloc aid) ∧
      (∀ r ∈ alloc.relocs, ∀ did info,
        tcx.getGlobalAlloc r.2 = some (GlobalAlloc.Static did) →
        tcx.staticInfo did = some info →
        ∃ dd, findNamedAux out.2.1.decls info.symbolName = some dd) ∧
      ((∀ r ∈ alloc.relocs, ∀ did info,
          tcx.getGlobalAlloc r.2 = some (GlobalAlloc.Static did) →
          tcx.staticInfo did = some info → info.rlinkage = none) →
        out.2.1.defs = st.2.1.defs)) := by
  constructor
  · intro cx m data_id section_name r did info hr heq hinfo htls hnd
    unfold define_one
    rw [if_neg hnd]
    have hnone := process_relocs_none tcx alloc r
      (fun st2 => process_reloc_tls tcx alloc st2 r did info heq hinfo htls)
      alloc.relocs
      (cx, m, ⟨alloc.align, section_name, alloc.bytes, [], []⟩) hr
    simp only [hnone]
  · intro st out h
    refine ⟨?_, process_relocs_static_declared tcx alloc alloc.relocs st out h,
      process_relocs_no_hint_defs tcx alloc alloc.relocs st out h⟩
    obtain ⟨-, -, -, -, -, ⟨push, hpush, -, hpushall⟩, -, -, -⟩ :=
      process_relocs_extends tcx alloc alloc.relocs st out h
    intro it hit
    rw [hpush] at hit
    rcases List.mem_append.mp hit with h2 | h2
    · obtain ⟨aid, heq2, -⟩ := hpushall it h2
      exact Or.inr ⟨aid, heq2⟩
    · exact Or.inl h2

/-- Witness for C3: the TLS-targeting block aborts fatally; the scan of the
non-TLS static target pushes no work item at all, declares the symbol `A`
and defines nothing. -/
theorem reloc_thread_local_and_static_policy_witness :
    define_one tcxT ConstantCx.new mEmpty 0 allocT none = StepOut.fatal ∧
    (∃ out, process_relocs tcxS allocS allocS.relocs
        (ConstantCx.new, mEmpty, ⟨1, none, [0], [], []⟩) = some out ∧
      (∃ dd, findNamedAux out.2.1.decls "A" = some dd) ∧
      out.2.1.defs = mEmpty.defs ∧
      (∀ it ∈ out.1.todo, it ∈ ConstantCx.new.todo ∨ ∃ aid, it = TodoItem.Alloc aid)) := by
  constructor
  · exact (reloc_thread_local_and_static_policy tcxT allocT).1 ConstantCx.new mEmpty 0
      none (0, 20) 7 { infoTLS with symbolName := "T7" } (by simp [allocT]) rfl rfl rfl
      (by simp [ConstantCx.new])
  · refine ⟨_, rfl, ?_, ?_, ?_⟩
    · exact ((reloc_thread_local_and_static_policy tcxS allocS).2 _ _ rfl).2.1
        (0, 42) (by simp [allocS]) 0 { infoTLS with symbolName := "A", threadLocal := false }
        rfl rfl
    · refine ((reloc_thread_local_and_static_policy tcxS allocS).2 _ _ rfl).2.2 ?_
      intro r hr did info h1 h2
      simp only [allocS, List.mem_singleton] at hr
      subst hr
      simp only [Tcx.getGlobalAlloc, tcxS, alookup, if_pos] at h1
      injection h1 with h1a
      injection h1a with h1b
      subst h1b
      simp only [Tcx.staticInfo, tcxS, alookup, if_pos] at h2
      injection h2 with h2a
      subst h2a
      rfl
    · exact ((reloc_thread_local_and_static_policy tcxS allocS).2 _ _ rfl).1

theorem StateLE.rfl (s : EmitState) : StateLE s s :=
  ⟨fun _ h => h, fun _ _ h => h, fun _ _ h => h, fun _ _ h => h, fun _ _ h => h⟩

theorem StateLE.comp {s1 s2 s3 : EmitState} (h1 : StateLE s1 s2)
    (h2 : StateLE s2 s3) : StateLE s1 s3 :=
  ⟨fun d h => h2.done_le d (h1.done_le d h),
   fun a d h => h2.anon_le a d (h1.anon_le a d h),
   fun n d h => h2.named_le n d (h1.named_le n d h),
   fun d c h => h2.decls_le d c (h1.decls_le d c h),
   fun d c h => h2.defs_le d c (h1.defs_le d c h)⟩

/-! ### Generic list lemmas for the termination measure -/

theorem alookup_none_not_key {α β : Type} [DecidableEq α] {l : List (α × β)}
    {k : α} (h : alookup l k = none) : ∀ v, (k, v) ∉ l := by
  intro v hv
  induction l with
  | nil => simp at hv
  | cons p t ih =>
      cases p with
      | mk a b =>
          simp only [alookup] at h
          split at h
          · exact absurd h (by simp)
          · rcases List.mem_cons.mp hv with he | hm
            · rename_i hne
              exact hne (congrArg Prod.fst he).symm
            · exact ih h hm

theorem alookup_of_mem_nodup {α β : Type} [DecidableEq α] {l : List (α × β)}
    {k : α} {v : β} (hm : (k, v) ∈ l) (hn : (l.map Prod.fst).Nodup) :
    alookup l k = some v := by
  induction l with
  | nil => simp at hm
  | cons p t ih =>
      cases p with
      | mk a b =>
          simp only [List.map_cons, List.nodup_cons] at hn
          rcases List.mem_cons.mp hm with he | hmem
          · cases he
            simp [alookup]
          · have hak : a ≠ k := by
              intro he2
              subst he2
              exact hn.1 (List.mem_map.mpr ⟨(a, v), hmem, rfl⟩)
            simp only [alookup, if_neg hak]
            exact ih hmem hn.2

theorem keys_nodup_append {α β : Type} {l : List (α × β)} {k : α} {v : β}
    (hn : (l.map Prod.fst).Nodup) (hk : ∀ w, (k, w) ∉ l) :
    ((l ++ [(k, v)]).map Prod.fst).Nodup := by
  rw [List.map_append]
  apply List.Nodup.append hn (by simp)
  intro a ha hb
  simp only [List.map_cons, List.map_nil, List.mem_singleton] at hb
  subst hb
  obtain ⟨⟨k2, w⟩, hmem, hfst⟩ := List.mem_map.mp ha
  cases hfst
  exact hk w hmem

theorem length_filter_mono {α : Type} (l : List α) (p q : α → Bool)
    (h : ∀ a, p a = true → q a = true) :
    (l.filter (fun a => !q a)).length ≤ (l.filter (fun a => !p a)).length := by
  induction l with
  | nil => simp
  | cons a t ih =>
      by_cases hq : q a = true
      · by_cases hp : p a = true
        · simp only [List.filter_cons, hq, hp, Bool.not_true]
          simpa using ih
        · simp only [List.filter_cons, hq, Bool.not_true,
            Bool.not_eq_true] at *
          simp [hp, ih]
          omega
      · have hp : ¬ p a = true := fun hpa => hq (h a hpa)
        simp only [Bool.not_eq_true] at hq hp
        simp only [List.filter_cons, hq, hp, Bool.not_false]
        simpa using ih

theorem length_filter_strict {α : Type} (l : List α) (p q : α → Bool)
    (h : ∀ a, p a = true → q a = true) (a0 : α) (ha0 : a0 ∈ l)
    (hq0 : q a0 = true) (hp0 : p a0 = false) :
    (l.filter (fun a => !q a)).length < (l.filter (fun a => !p a)).length := by
  induction l with
  | nil => simp at ha0
  | cons a t ih =>
      rcases List.mem_cons.mp ha0 with rfl | hmem
      · simp only [List.filter_cons, hq0, hp0, Bool.not_true, Bool.not_false]
        simp only [Bool.false_eq_true, if_false, if_true, List.length_cons]
        exact Nat.lt_succ_of_le (length_filter_mono t p q h)
      · by_cases hqa : q a = true
        · by_cases hpa : p a = true
          · simp only [List.filter_cons, hqa, hpa, Bool.not_true]
            simpa using ih hmem
          · simp only [Bool.not_eq_true] at hpa
            simp only [List.filter_cons, hqa, hpa, Bool.not_true, Bool.not_false]
            simp only [Bool.false_eq_true, if_false, if_true, List.length_cons]
            exact Nat.lt_succ_of_le (le_of_lt (ih hmem))
        · have hpa : ¬ p a = true := fun hpa2 => hqa (h a hpa2)
          simp only [Bool.not_eq_true] at hqa hpa
          simp only [List.filter_cons, hqa, hpa, Bool.not_false]
          simpa using ih hmem

theorem le_foldr_max (l : List Nat) (a : Nat) (h : a ∈ l) :
    a ≤ List.foldr max 0 l := by
  induction l with
  | nil => simp at h
  | cons b t ih =>
      rcases List.mem_cons.mp h with rfl | hm
      · exact le_max_left _ _
      · exact le_trans (ih hm) (le_max_right _ _)

theorem alookup_none_of_bound {β : Type} (l : List (Nat × β)) (n : Nat)
    (h : ∀ p ∈ l, p.1 < n) : alookup l n = none := by
  cases ha : alookup l n with
  | none => rfl
  | some v => exact absurd (h _ (alookup_mem ha)) (by simp)

theorem data_id_for_static_no_hint_eq (tcx : Tcx) (m : ModuleState) (did : DefId)
    (info : StaticInfo) (definition : Bool)
    (hinfo : tcx.staticInfo did = some info) (hrl : info.rlinkage = none) :
    data_id_for_static tcx m did definition =
      some ((declare_data m info.symbolName
          (if definition = true then info.defLinkage else Linkage.Import)
          (info.isMutableStatic || !info.isFreeze) info.threadLocal).1,
        (declare_data m info.symbolName
          (if definition = true then info.defLinkage else Linkage.Import)
          (info.isMutableStatic || !info.isFreeze) info.threadLocal).2) := by
  simp [data_id_for_static, hinfo, hrl]

theorem static_rlinkage_none_of_WF (tcx : Tcx) (hWF : tcxWFB tcx = true)
    (did : DefId) (info : StaticInfo) (hinfo : tcx.staticInfo did = some info) :
    info.rlinkage = none := by
  have hmem := alookup_mem hinfo
  simp only [tcxWFB, Bool.and_eq_true, List.all_eq_true] at hWF
  have h2 := hWF.2 _ hmem
  simp only [Bool.and_eq_true, Option.isNone_iff_eq_none] at h2
  exact h2.1

theorem static_initAlloc_WF (tcx : Tcx) (hWF : tcxWFB tcx = true)
    (did : DefId) (info : StaticInfo) (hinfo : tcx.staticInfo did = some info) :
    allocWFB tcx info.initAlloc = true := by
  have hmem := alookup_mem hinfo
  simp only [tcxWFB, Bool.and_eq_true, List.all_eq_true] at hWF
  have h2 := hWF.2 _ hmem
  simp only [Bool.and_eq_true] at h2
  exact h2.2

theorem memory_allocWFB_of_WF (tcx : Tcx) (hWF : tcxWFB tcx = true)
    (aid : AllocId) (a : Allocation)
    (hga : tcx.getGlobalAlloc aid = some (GlobalAlloc.Memory a)) :
    allocWFB tcx a = true := by
  have hmem := alookup_mem hga
  simp only [tcxWFB, Bool.and_eq_true, List.all_eq_true] at hWF
  exact hWF.1 _ hmem

theorem declaredAnonB_decls_append (m : ModuleState) (e : List (DataId × DataDecl))
    (d : DataId) (h : declaredAnonB m d = true) :
    declaredAnonB { m with nextId := m.nextId + 1, decls := m.decls ++ e } d = true := by
  unfold declaredAnonB at h ⊢
  cases ha : alookup m.decls d with
  | none => rw [ha] at h; exact absurd h (by simp)
  | some dec =>
      rw [ha] at h
      rw [alookup_append_some e ha]
      exact h

/-- Declaring a fresh object (named or anonymous) preserves the scan
invariant. -/
theorem ScanInv_module_decl (ex : DataId) (cx : ConstantCx) (m : ModuleState)
    (hinv : ScanInv ex cx m) (dec : DataDecl) :
    ScanInv ex cx
      { m with nextId := m.nextId + 1, decls := m.decls ++ [(m.nextId, dec)] } := by
  obtain ⟨⟨hnd, hbd, hnf, hbf⟩, hnodA, hdeclA, hdefA, hpend⟩ := hinv
  refine ⟨⟨?_, ?_, hnf, ?_⟩, hnodA, ?_, hdefA, hpend⟩
  · refine keys_nodup_append hnd ?_
    intro w hw
    exact absurd (hbd _ hw) (by simp)
  · intro p hp
    rcases List.mem_append.mp hp with h1 | h1
    · exact Nat.lt_succ_of_lt (hbd _ h1)
    · simp only [List.mem_singleton] at h1
      subst h1
      exact Nat.lt_succ_self _
  · intro p hp
    exact Nat.lt_succ_of_lt (hbf _ hp)
  · intro p hp
    exact declaredAnonB_decls_append m _ _ (hdeclA p hp)

/-- Pushing a work item preserves the scan invariant. -/
theorem ScanInv_todo_push (ex : DataId) (cx : ConstantCx) (m : ModuleState)
    (hinv : ScanInv ex cx m) (it : TodoItem) :
    ScanInv ex { cx with todo := it :: cx.todo } m := by
  obtain ⟨hmod, hnodA, hdeclA, hdefA, hpend⟩ := hinv
  refine ⟨hmod, hnodA, hdeclA, hdefA, ?_⟩
  intro p hp
  rcases hpend p hp with h1 | h1 | h1
  · exact Or.inl h1
  · exact Or.inr (Or.inl (List.mem_cons_of_mem _ h1))
  · exact Or.inr (Or.inr h1)

/-- Recording a freshly pushed allocation in the dedup table under a freshly
declared anonymous object preserves the scan invariant. -/
theorem ScanInv_anon_insert (ex : DataId) (cx : ConstantCx) (m : ModuleState)
    (hinv : ScanInv ex cx m) (aid : AllocId) (w : Bool)
    (hnone : alookup cx.anon_allocs aid = none)
    (htodo : TodoItem.Alloc aid ∈ cx.todo) :
    ScanInv ex { cx with anon_allocs := cx.anon_allocs ++ [(aid, m.nextId)] }
      { m with nextId := m.nextId + 1,
               decls := m.decls ++ [(m.nextId, ⟨none, Linkage.Local, w, false⟩)] } := by
  have hinv2 := ScanInv_module_decl ex cx m hinv ⟨none, Linkage.Local, w, false⟩
  obtain ⟨hmod, hnodA, hdeclA, hdefA, hpend⟩ := hinv2
  obtain ⟨⟨-, hbd, -, hbf⟩, -, -, -, -⟩ := hinv
  refine ⟨hmod, ?_, ?_, ?_, ?_⟩
  · exact keys_nodup_append hnodA (alookup_none_not_key hnone)
  · intro p hp
    rcases List.mem_append.mp hp with h1 | h1
    · exact hdeclA p h1
    · simp only [List.mem_singleton] at h1
      subst h1
      simp [declaredAnonB,
        alookup_append_none _ (alookup_none_of_bound m.decls m.nextId hbd),
        alookup_singleton]
  · intro p hp
    rcases List.mem_append.mp hp with h1 | h1
    · exact hdefA p h1
    · simp only [List.mem_singleton] at h1
      subst h1
      intro hdef
      have hdef2 : (alookup m.defs m.nextId).isSome = true := hdef
      rw [alookup_none_of_bound m.defs m.nextId hbf] at hdef2
      exact absurd hdef2 (by simp)
  · intro p hp
    rcases List.mem_append.mp hp with h1 | h1
    · rcases hpend p h1 with h2 | h2 | h2
      · exact Or.inl h2
      · exact Or.inr (Or.inl h2)
      · exact Or.inr (Or.inr h2)
    · simp only [List.mem_singleton] at h1
      subst h1
      exact Or.inr (Or.inl htodo)

/-- Under the graph well-formedness conditions, one relocation-scan step
succeeds and preserves the scan invariant; declarations grow only by fresh
handles, definitions and the done set are untouched. -/
theorem process_reloc_WF_facts (tcx : Tcx) (alloc : Allocation) (ex : DataId)
    (hWF : tcxWFB tcx = true) (r : Nat × AllocId)
    (hr : allocRelocWFB tcx alloc r = true)
    (cx : ConstantCx) (m : ModuleState) (dctx : DataDescription)
    (hinv : ScanInv ex cx m) :
    ∃ out, process_reloc tcx alloc (cx, m, dctx) r = some out ∧
      ScanInv ex out.1 out.2.1 ∧
      (∃ e, out.2.1.decls = m.decls ++ e ∧ ∀ p ∈ e, m.nextId ≤ p.1) ∧
      out.2.1.defs = m.defs ∧ out.1.done = cx.done ∧
      m.nextId ≤ out.2.1.nextId ∧
      (∀ t ∈ out.2.2.dataRelocs,
        t ∈ dctx.dataRelocs ∨ (alookup out.2.1.decls t.2.1).isSome = true) := by
  simp only [allocRelocWFB, Bool.and_eq_true, decide_eq_true_eq] at hr
  obtain ⟨hb, htgt⟩ := hr
  cases hg : tcx.getGlobalAlloc r.2 with
  | none => rw [hg] at htgt; exact absurd htgt (by simp)
  | some ga =>
      rw [hg] at htgt
      cases ga with
      | Function inst =>
          simp only [decide_eq_true_eq] at htgt
          refine ⟨(cx, (import_function m inst).2,
            { dctx with funcRelocs := dctx.funcRelocs ++ [(r.1, inst)] }),
            ?_, hinv, ⟨[], by simp [import_function]⟩, rfl, rfl, le_refl _,
            fun t ht => Or.inl ht⟩
          simp [process_reloc, hg, hb, htgt, import_function]
      | Memory ta =>
          cases hc : alookup cx.anon_allocs r.2 with
          | some d =>
              refine ⟨({ cx with todo := TodoItem.Alloc r.2 :: cx.todo }, m,
                { dctx with dataRelocs := dctx.dataRelocs ++ [(r.1, d, addendOf tcx alloc r.1)] }),
                ?_, ScanInv_todo_push ex cx m hinv _, ⟨[], by simp⟩, rfl, rfl, le_refl _, ?_⟩
              · simp [process_reloc, hg, hb, data_id_for_alloc_id, hc, addendOf]
              · intro t ht
                rcases List.mem_append.mp ht with h1 | h1
                · exact Or.inl h1
                · simp only [List.mem_singleton] at h1
                  subst h1
                  refine Or.inr ?_
                  have hda := hinv.2.2.1 _ (alookup_mem hc)
                  unfold declaredAnonB at hda
                  cases hl : alookup m.decls d with
                  | none => rw [hl] at hda; exact absurd hda (by simp)
                  | some dec => simp [hl]
          | none =>
              refine ⟨(⟨TodoItem.Alloc r.2 :: cx.todo, cx.done, cx.anon_allocs ++ [(r.2, m.nextId)]⟩,
                { m with nextId := m.nextId + 1, decls := m.decls ++ [(m.nextId, ⟨none, Linkage.Local, decide (ta.mutability = Mutability.Mut), false⟩)] },
                { dctx with dataRelocs := dctx.dataRelocs ++ [(r.1, m.nextId, addendOf tcx alloc r.1)] }),
                ?_, ?_,
                ⟨[(m.nextId, ⟨none, Linkage.Local, decide (ta.mutability = Mutability.Mut), false⟩)], rfl, by simp⟩,
                rfl, rfl, Nat.le_succ _, ?_⟩
              · simp [process_reloc, hg, hb, data_id_for_alloc_id, hc, declare_anonymous_data, addendOf]
              · exact ScanInv_anon_insert ex
                  { cx with todo := TodoItem.Alloc r.2 :: cx.todo } m
                  (ScanInv_todo_push ex cx m hinv _) r.2
                  (decide (ta.mutability = Mutability.Mut)) hc
                  (List.mem_cons_self _ _)
              · intro t ht
                rcases List.mem_append.mp ht with h1 | h1
                · exact Or.inl h1
                · simp only [List.mem_singleton] at h1
                  subst h1
                  refine Or.inr ?_
                  show (alookup (m.decls ++ [(m.nextId,
                    (⟨none, Linkage.Local, decide (ta.mutability = Mutability.Mut), false⟩ : DataDecl))])
                    m.nextId).isSome = true
                  rw [alookup_append_none _ (alookup_none_of_bound m.decls m.nextId hinv.1.2.1)]
                  rw [alookup_singleton]
                  rfl
      | Static did =>
          cases hsi : tcx.staticInfo did with
          | none => simp [hsi] at htgt
          | some info =>
              simp only [hsi] at htgt
              have htls : info.threadLocal = false := by
                cases h2 : info.threadLocal
                · rfl
                · rw [h2] at htgt; exact absurd htgt (by simp)
              have hrl := static_rlinkage_none_of_WF tcx hWF did info hsi
              cases hf : findNamedAux m.decls info.symbolName with
              | some d0 =>
                  have hds : data_id_for_static tcx m did false = some (d0, m) := by
                    rw [data_id_for_static_no_hint_eq tcx m did info false hsi hrl]
                    rw [declare_data_found _ _ _ _ _ _ hf]
                  refine ⟨(cx, m,
                    { dctx with dataRelocs := dctx.dataRelocs ++ [(r.1, d0, addendOf tcx alloc r.1)] }),
                    ?_, hinv, ⟨[], by simp⟩, rfl, rfl, le_refl _, ?_⟩
                  · simp [process_reloc, hg, hb, hsi, htls, hds, addendOf]
                  · intro t ht
                    rcases List.mem_append.mp ht with h1 | h1
                    · exact Or.inl h1
                    · simp only [List.mem_singleton] at h1
                      subst h1
                      refine Or.inr ?_
                      obtain ⟨dec, hmem2, hname⟩ := findNamedAux_mem hf
                      simp [alookup_of_mem_nodup hmem2 hinv.1.1]
              | none =>
                  have hds : data_id_for_static tcx m did false = some (m.nextId,
                      { m with nextId := m.nextId + 1, decls := m.decls ++ [(m.nextId, ⟨some info.symbolName, Linkage.Import, info.isMutableStatic || !info.isFreeze, info.threadLocal⟩)] }) := by
                    rw [data_id_for_static_no_hint_eq tcx m did info false hsi hrl]
                    rw [declare_data_fresh _ _ _ _ _ hf]
                    simp
                  refine ⟨(cx,
                    { m with nextId := m.nextId + 1, decls := m.decls ++ [(m.nextId, ⟨some info.symbolName, Linkage.Import, info.isMutableStatic || !info.isFreeze, info.threadLocal⟩)] },
                    { dctx with dataRelocs := dctx.dataRelocs ++ [(r.1, m.nextId, addendOf tcx alloc r.1)] }),
                    ?_, ScanInv_module_decl ex cx m hinv _,
                    ⟨[(m.nextId, ⟨some info.symbolName, Linkage.Import, info.isMutableStatic || !info.isFreeze, info.threadLocal⟩)], rfl, by simp⟩,
                    rfl, rfl, Nat.le_succ _, ?_⟩
                  · simp [process_reloc, hg, hb, hsi, htls, hds, addendOf]
                  · intro t ht
                    rcases List.mem_append.mp ht with h1 | h1
                    · exact Or.inl h1
                    · simp only [List.mem_singleton] at h1
                      subst h1
                      refine Or.inr ?_
                      show (alookup (m.decls ++ [(m.nextId,
                        (⟨some info.symbolName, Linkage.Import,
                          info.isMutableStatic || !info.isFreeze, info.threadLocal⟩ : DataDecl))])
                        m.nextId).isSome = true
                      rw [alookup_append_none _ (alookup_none_of_bound m.decls m.nextId hinv.1.2.1)]
                      rw [alookup_singleton]
                      rfl

/-- The whole relocation scan under well-formedness: success, invariant
preservation, fresh-only declarations, untouched definitions and done set. -/
theorem process_relocs_WF_facts (tcx : Tcx) (alloc : Allocation) (ex : DataId)
    (hWF : tcxWFB tcx = true) :
    ∀ (rs : List (Nat × AllocId)), (∀ r ∈ rs, allocRelocWFB tcx alloc r = true) →
    ∀ (cx : ConstantCx) (m : ModuleState) (dctx : DataDescription),
    ScanInv ex cx m →
    ∃ out, process_relocs tcx alloc rs (cx, m, dctx) = some out ∧
      ScanInv ex out.1 out.2.1 ∧
      (∃ e, out.2.1.decls = m.decls ++ e ∧ ∀ p ∈ e, m.nextId ≤ p.1) ∧
      out.2.1.defs = m.defs ∧ out.1.done = cx.done ∧
      m.nextId ≤ out.2.1.nextId ∧
      (∀ t ∈ out.2.2.dataRelocs,
        t ∈ dctx.dataRelocs ∨ (alookup out.2.1.decls t.2.1).isSome = true) := by
  intro rs
  induction rs with
  | nil =>
      intro _ cx m dctx hinv
      exact ⟨(cx, m, dctx), rfl, hinv, ⟨[], by simp⟩, rfl, rfl, le_refl _,
        fun t ht => Or.inl ht⟩
  | cons a rest ih =>
      intro hall cx m dctx hinv
      obtain ⟨out1, h1, hinv1, ⟨e1, he1, hb1⟩, hdefs1, hdone1, hn1, hdr1⟩ :=
        process_reloc_WF_facts tcx alloc ex hWF a (hall a (by simp)) cx m dctx hinv
      rcases out1 with ⟨cx1, m1, dctx1⟩
      obtain ⟨out2, h2, hinv2, ⟨e2, he2, hb2⟩, hdefs2, hdone2, hn2, hdr2⟩ :=
        ih (fun r2 hr2 => hall r2 (List.mem_cons_of_mem _ hr2)) cx1 m1 dctx1 hinv1
      refine ⟨out2, ?_, hinv2, ⟨e1 ++ e2, ?_, ?_⟩, ?_, ?_, le_trans hn1 hn2, ?_⟩
      · simp only [process_relocs, h1]
        exact h2
      · rw [he2, he1, List.append_assoc]
      · intro p hp
        rcases List.mem_append.mp hp with hp1 | hp1
        · exact hb1 p hp1
        · exact le_trans hn1 (hb2 p hp1)
      · rw [hdefs2, hdefs1]
      · rw [hdone2, hdone1]
      · intro t ht
        rcases hdr2 t ht with h3 | h3
        · rcases hdr1 t h3 with h4 | h4
          · exact Or.inl h4
          · refine Or.inr ?_
            cases hl : alookup m1.decls t.2.1 with
            | none => rw [hl] at h4; exact absurd h4 (by simp)
            | some dec =>
                rw [he2, alookup_append_some e2 hl]
                rfl
        · exact Or.inr h3

theorem alookup_none_of_le {β : Type} (l : List (Nat × β)) (n k : Nat)
    (h : ∀ p ∈ l, p.1 < n) (hk : n ≤ k) : alookup l k = none := by
  cases ha : alookup l k with
  | none => rfl
  | some v =>
      have := h _ (alookup_mem ha)
      exact absurd this (by omega)

theorem findNamedAux_append_cases {l1 l2 : List (DataId × DataDecl)} {s : String}
    {d : DataId} (h : findNamedAux (l1 ++ l2) s = some d) :
    findNamedAux l1 s = some d ∨
      (findNamedAux l1 s = none ∧ ∃ dec, (d, dec) ∈ l2 ∧ dec.name = some s) := by
  cases hf : findNamedAux l1 s with
  | some d2 =>
      rw [findNamedAux_append_some l2 hf] at h
      injection h with h2
      subst h2
      exact Or.inl rfl
  | none =>
      rw [findNamedAux_append_none l2 hf] at h
      exact Or.inr ⟨rfl, findNamedAux_mem h⟩

theorem mem_relocs_le_maxRelocs (tcx : Tcx) (aid : AllocId) (a : Allocation)
    (hga : tcx.getGlobalAlloc aid = some (GlobalAlloc.Memory a)) :
    a.relocs.length ≤ maxRelocs tcx := by
  apply le_foldr_max
  apply List.mem_append_left
  exact List.mem_map.mpr ⟨(aid, GlobalAlloc.Memory a), alookup_mem hga, rfl⟩

theorem static_relocs_le_maxRelocs (tcx : Tcx) (did : DefId) (info : StaticInfo)
    (hinfo : tcx.staticInfo did = some info) :
    info.initAlloc.relocs.length ≤ maxRelocs tcx := by
  apply le_foldr_max
  apply List.mem_append_right
  exact List.mem_map.mpr ⟨(did, info), alookup_mem hinfo, rfl⟩

theorem mem_memAllocIds (tcx : Tcx) (aid : AllocId) (a : Allocation)
    (hga : tcx.getGlobalAlloc aid = some (GlobalAlloc.Memory a)) :
    aid ∈ memAllocIds tcx := by
  unfold memAllocIds
  refine List.mem_map.mpr ⟨(aid, GlobalAlloc.Memory a), ?_, rfl⟩
  rw [List.mem_filter]
  exact ⟨alookup_mem hga, rfl⟩

theorem allocDoneB_mono {s s2 : EmitState} (hle : StateLE s s2) (aid : AllocId)
    (h : allocDoneB s aid = true) : allocDoneB s2 aid = true := by
  unfold allocDoneB at h ⊢
  cases ha : alookup s.cx.anon_allocs aid with
  | none => rw [ha] at h; exact absurd h (by simp)
  | some d =>
      rw [ha] at h
      rw [hle.anon_le aid d ha]
      simp only [decide_eq_true_eq] at h ⊢
      exact hle.done_le d h

theorem staticDoneB_mono {s s2 : EmitState} (hle : StateLE s s2) (info : StaticInfo)
    (h : staticDoneB s info = true) : staticDoneB s2 info = true := by
  unfold staticDoneB at h ⊢
  cases ha : findNamedAux s.module.decls info.symbolName with
  | none => rw [ha] at h; exact absurd h (by simp)
  | some d =>
      rw [ha] at h
      rw [hle.named_le _ d ha]
      simp only [decide_eq_true_eq] at h ⊢
      exact hle.done_le d h

/-- Recording a fresh allocation handle for the identity currently being
defined (the exception id) preserves the scan invariant. -/
theorem ScanInv_anon_insert_ex (cx : ConstantCx) (m : ModuleState)
    (hinv : ScanInv m.nextId cx m) (aid : AllocId) (w : Bool)
    (hnone : alookup cx.anon_allocs aid = none) :
    ScanInv m.nextId { cx with anon_allocs := cx.anon_allocs ++ [(aid, m.nextId)] }
      { m with nextId := m.nextId + 1,
               decls := m.decls ++ [(m.nextId, ⟨none, Linkage.Local, w, false⟩)] } := by
  have hinv2 := ScanInv_module_decl m.nextId cx m hinv ⟨none, Linkage.Local, w, false⟩
  obtain ⟨hmod, hnodA, hdeclA, hdefA, hpend⟩ := hinv2
  obtain ⟨⟨-, hbd, -, hbf⟩, -, -, -, -⟩ := hinv
  refine ⟨hmod, ?_, ?_, ?_, ?_⟩
  · exact keys_nodup_append hnodA (alookup_none_not_key hnone)
  · intro p hp
    rcases List.mem_append.mp hp with h1 | h1
    · exact hdeclA p h1
    · simp only [List.mem_singleton] at h1
      subst h1
      simp [declaredAnonB,
        alookup_append_none _ (alookup_none_of_bound m.decls m.nextId hbd),
        alookup_singleton]
  · intro p hp
    rcases List.mem_append.mp hp with h1 | h1
    · exact hdefA p h1
    · simp only [List.mem_singleton] at h1
      subst h1
      intro hdef
      have hdef2 : (alookup m.defs m.nextId).isSome = true := hdef
      rw [alookup_none_of_bound m.defs m.nextId hbf] at hdef2
      exact absurd hdef2 (by simp)
  · intro p hp
    rcases List.mem_append.mp hp with h1 | h1
    · rcases hpend p h1 with h2 | h2 | h2
      · exact Or.inl h2
      · exact Or.inr (Or.inl h2)
      · exact Or.inr (Or.inr h2)
    · simp only [List.mem_singleton] at h1
      subst h1
      exact Or.inr (Or.inr rfl)

/-- One emission under well-formedness: `define_one` writes the object's
bytes and relocations exactly once and marks it done; the scan before it only
declares fresh handles and pushes memory work items. -/
theorem define_one_WF (tcx : Tcx) (alloc : Allocation)
    (hWF : tcxWFB tcx = true) (hal : allocWFB tcx alloc = true)
    (cx : ConstantCx) (m : ModuleState) (d : DataId) (section_name : Option String)
    (hinv : ScanInv d cx m)
    (hnd : d ∉ cx.done)
    (hdefd : alookup m.defs d = none) :
    ∃ cx2 m2 dctx,
      define_one tcx cx m d alloc section_name =
        StepOut.next ⟨{ cx2 with done := cx2.done ++ [d] },
          { m2 with defs := m2.defs ++ [(d, dctx)] }⟩ ∧
      ScanInv d cx2 m2 ∧
      (∃ e, m2.decls = m.decls ++ e ∧ ∀ p ∈ e, m.nextId ≤ p.1) ∧
      m2.defs = m.defs ∧
      cx2.done = cx.done ∧
      m.nextId ≤ m2.nextId ∧
      (∀ t ∈ dctx.dataRelocs, (alookup m2.decls t.2.1).isSome = true) ∧
      (∃ push, cx2.todo = push ++ cx.todo ∧ push.length ≤ alloc.relocs.length ∧
        ∀ it2 ∈ push, ∃ aid, it2 = TodoItem.Alloc aid ∧ isMemoryTarget tcx aid = true) ∧
      (∃ ea, cx2.anon_allocs = cx.anon_allocs ++ ea) := by
  have hrsall : ∀ r ∈ alloc.relocs, allocRelocWFB tcx alloc r = true := by
    simpa [allocWFB, List.all_eq_true] using hal
  obtain ⟨out, hpr, hinv2, hdeclse, hdefs2, hdone2, hnext2, hdr⟩ :=
    process_relocs_WF_facts tcx alloc d hWF alloc.relocs hrsall cx m
      ⟨alloc.align, section_name, alloc.bytes, [], []⟩ hinv
  obtain ⟨-, ⟨ea, hea⟩, -, -, -, ⟨push, hpush, hlen, hallp⟩, -, -, -⟩ :=
    process_relocs_extends tcx alloc alloc.relocs _ out hpr
  rcases out with ⟨cx2, m2, dctx⟩
  have hdefd2 : alookup m2.defs d = none := by rw [hdefs2]; exact hdefd
  refine ⟨cx2, m2, dctx, ?_, hinv2, hdeclse, hdefs2, hdone2, hnext2, ?_,
    ⟨push, hpush, hlen, hallp⟩, ⟨ea, hea⟩⟩
  · simp only [define_one, if_neg hnd, hpr, define_data, hdefd2]
    simp
  · intro t ht
    rcases hdr t ht with h1 | h1
    · simp at h1
    · exact h1

/-- Re-establishing the drain-loop invariant after one emission: from a
pre-state reached by popping the queue head and computing the handle,
`define_one` succeeds, marks the handle done, and the state invariant holds
again; the queue only gained work items for the emitted object's relocation
targets. -/
theorem step_assemble (tcx : Tcx) (s : EmitState) (rest : List TodoItem)
    (d : DataId) (cxP : ConstantCx) (mP : ModuleState)
    (alloc : Allocation) (section_name : Option String)
    (hWF : tcxWFB tcx = true)
    (hinv : StateInv tcx s)
    (hal : allocWFB tcx alloc = true)
    (htodoP : cxP.todo = rest)
    (hrest : ∀ x ∈ rest, x ∈ s.cx.todo)
    (hdoneP : cxP.done = s.cx.done)
    (hanonP : ∃ ea, cxP.anon_allocs = s.cx.anon_allocs ++ ea)
    (hdeclsP : ∃ e0, mP.decls = s.module.decls ++ e0 ∧ ∀ p ∈ e0, s.module.nextId ≤ p.1)
    (hdefsP : mP.defs = s.module.defs)
    (hnextP : s.module.nextId ≤ mP.nextId)
    (hinvP : ScanInv d cxP mP)
    (hndP : d ∉ cxP.done)
    (hdefdP : alookup mP.defs d = none)
    (hdlt : d < mP.nextId) :
    ∃ s2, define_one tcx cxP mP d alloc section_name = StepOut.next s2 ∧
      StateInv tcx s2 ∧ StateLE s s2 ∧
      s2.cx.done = s.cx.done ++ [d] ∧ d ∈ s2.cx.done ∧
      (∃ push, s2.cx.todo = push ++ rest ∧ push.length ≤ alloc.relocs.length) ∧
      (∃ E, s2.module.decls = mP.decls ++ E) ∧
      (∃ ea2, s2.cx.anon_allocs = cxP.anon_allocs ++ ea2) := by
  obtain ⟨ea0, hea0⟩ := hanonP
  obtain ⟨e0, he0, hb0⟩ := hdeclsP
  obtain ⟨cx2, m2, dctx, heq, hinv2, ⟨e2, he2, hb2⟩, hdefs2, hdone2, hnext2, hdr,
    ⟨push, hpush, hlen, hallp⟩, ⟨ea2, hea2⟩⟩ :=
    define_one_WF tcx alloc hWF hal cxP mP d section_name hinvP hndP hdefdP
  obtain ⟨⟨hndecl2, hbdecl2, hndefs2, hbdefs2⟩, hnodA2, hdeclA2, hdefA2, hpend2⟩ := hinv2
  obtain ⟨⟨hndeclS, hbdeclS, hndefsS, hbdefsS⟩, hnodAS, hdeclAS, hdefAS, hpendS,
    hdoneDefS, htodoWFS, hrelS⟩ := hinv
  have hdeclsChain : m2.decls = s.module.decls ++ (e0 ++ e2) := by
    rw [he2, he0, List.append_assoc]
  have hbE : ∀ p ∈ e0 ++ e2, s.module.nextId ≤ p.1 := by
    intro p hp
    rcases List.mem_append.mp hp with h1 | h1
    · exact hb0 p h1
    · exact le_trans hnextP (hb2 p h1)
  have hdefsChain : m2.defs = s.module.defs := by rw [hdefs2, hdefsP]
  have hdoneChain : cx2.done = s.cx.done := by rw [hdone2, hdoneP]
  have hanonChain : cx2.anon_allocs = s.cx.anon_allocs ++ (ea0 ++ ea2) := by
    rw [hea2, hea0, List.append_assoc]
  have htodoChain : cx2.todo = push ++ rest := by rw [hpush, htodoP]
  have hdefdS : alookup s.module.defs d = none := by rw [← hdefsP]; exact hdefdP
  have hdefd2 : alookup m2.defs d = none := by rw [hdefsChain]; exact hdefdS
  have hdl2 : d < m2.nextId := lt_of_lt_of_le hdlt hnext2
  have hdefsNew : alookup (m2.defs ++ [(d, dctx)]) d = some dctx := by
    rw [alookup_append_none _ hdefd2]
    exact alookup_singleton d dctx
  have hdmem : d ∈ cx2.done ++ [d] := List.mem_append_right _ (by simp)
  have hdefsLe : ∀ dd c, alookup s.module.defs dd = some c →
      alookup (m2.defs ++ [(d, dctx)]) dd = some c := by
    intro dd c h
    have h2 : alookup m2.defs dd = some c := by rw [hdefsChain]; exact h
    exact alookup_append_some _ h2
  have hle : StateLE s ⟨{ cx2 with done := cx2.done ++ [d] },
      { m2 with defs := m2.defs ++ [(d, dctx)] }⟩ := by
    refine ⟨?_, ?_, ?_, ?_, ?_⟩
    · intro x hx
      show x ∈ cx2.done ++ [d]
      rw [hdoneChain]
      exact List.mem_append_left _ hx
    · intro aid d0 h
      show alookup cx2.anon_allocs aid = some d0
      rw [hanonChain]
      exact alookup_append_some _ h
    · intro nm d0 h
      show findNamedAux m2.decls nm = some d0
      rw [hdeclsChain]
      exact findNamedAux_append_some _ h
    · intro d0 dec h
      show alookup m2.decls d0 = some dec
      rw [hdeclsChain]
      exact alookup_append_some _ h
    · intro d0 c h
      exact hdefsLe d0 c h
  have hSI : StateInv tcx ⟨{ cx2 with done := cx2.done ++ [d] },
      { m2 with defs := m2.defs ++ [(d, dctx)] }⟩ := by
    refine ⟨⟨hndecl2, hbdecl2, ?_, ?_⟩, hnodA2, hdeclA2, ?_, ?_, ?_, ?_, ?_⟩
    · exact keys_nodup_append hndefs2 (alookup_none_not_key hdefd2)
    · intro p hp
      rcases List.mem_append.mp hp with h1 | h1
      · exact hbdefs2 p h1
      · simp only [List.mem_singleton] at h1
        subst h1
        exact hdl2
    · intro p hp hsome
      have hsome2 : (alookup (m2.defs ++ [(d, dctx)]) p.2).isSome = true := hsome
      by_cases hpd : p.2 = d
      · rw [hpd]
        exact hdmem
      · have hkey : (alookup m2.defs p.2).isSome = true := by
          cases hl : alookup m2.defs p.2 with
          | some c => simp
          | none =>
              rw [alookup_append_none _ hl] at hsome2
              have hne : d ≠ p.2 := fun h => hpd h.symm
              simp [alookup, hne] at hsome2
        exact List.mem_append_left _ (hdefA2 p hp hkey)
    · intro p hp
      rcases hpend2 p hp with h1 | h1 | h1
      · exact Or.inl (List.mem_append_left _ h1)
      · exact Or.inr h1
      · refine Or.inl ?_
        rw [h1]
        exact hdmem
    · intro dd hdd
      show (alookup (m2.defs ++ [(d, dctx)]) dd).isSome = true
      rcases List.mem_append.mp hdd with h1 | h1
      · have h1S : dd ∈ s.cx.done := by rw [← hdoneChain]; exact h1
        have hds := hdoneDefS dd h1S
        cases hl : alookup s.module.defs dd with
        | none => rw [hl] at hds; exact absurd hds (by simp)
        | some c =>
            rw [hdefsLe dd c hl]
            simp
      · simp only [List.mem_singleton] at h1
        subst h1
        rw [hdefsNew]
        simp
    · intro x hx
      have hx2 : x ∈ push ++ rest := by rw [← htodoChain]; exact hx
      rcases List.mem_append.mp hx2 with hp1 | hp1
      · obtain ⟨aid, rfl, hm⟩ := hallp x hp1
        simp only [todoWFB]
        exact hm
      · have hxS := htodoWFS x (hrest x hp1)
        cases x with
        | Alloc aid => exact hxS
        | Static did2 =>
            cases hsi2 : tcx.staticInfo did2 with
            | none => simp [todoWFB, hsi2] at hxS
            | some info2 =>
                simp only [todoWFB, hsi2] at hxS ⊢
                cases hf2 : findNamedAux m2.decls info2.symbolName with
                | none => simp
                | some dd =>
                    by_cases hdd : dd = d
                    · subst hdd
                      simp [hdmem]
                    · cases hl : alookup s.module.defs dd with
                      | none =>
                          have hnone2 : alookup (m2.defs ++ [(d, dctx)]) dd = none := by
                            have hl2 : alookup m2.defs dd = none := by
                              rw [hdefsChain]; exact hl
                            rw [alookup_append_none _ hl2]
                            have hne : d ≠ dd := fun h => hdd h.symm
                            simp [alookup, hne]
                          simp [hnone2]
                      | some c =>
                          have hf2S : findNamedAux (s.module.decls ++ (e0 ++ e2))
                              info2.symbolName = some dd := by
                            rw [← hdeclsChain]; exact hf2
                          rcases findNamedAux_append_cases hf2S with
                            hold | ⟨-, dec, hdE, -⟩
                          · simp only [hold, hl, Option.isSome_some, Bool.not_true,
                              Bool.false_or, decide_eq_true_eq] at hxS
                            have hdd2 : dd ∈ cx2.done ++ [d] :=
                              List.mem_append_left _ (by rw [hdoneChain]; exact hxS)
                            simp [hdd2]
                          · have hge : s.module.nextId ≤ dd := hbE (dd, dec) hdE
                            have hlt : dd < s.module.nextId := hbdefsS _ (alookup_mem hl)
                            exact absurd hge (not_le_of_gt hlt)
    · intro p hp t ht
      show (alookup m2.decls t.2.1).isSome = true
      have hp2 : p ∈ m2.defs ++ [(d, dctx)] := hp
      rcases List.mem_append.mp hp2 with h1 | h1
      · have h1S : p ∈ s.module.defs := by rw [← hdefsChain]; exact h1
        have hds := hrelS p h1S t ht
        cases hl : alookup s.module.decls t.2.1 with
        | none => rw [hl] at hds; exact absurd hds (by simp)
        | some dec =>
            have h2 : alookup m2.decls t.2.1 = some dec := by
              rw [hdeclsChain]
              exact alookup_append_some _ hl
            rw [h2]
            simp
      · simp only [List.mem_singleton] at h1
        subst h1
        exact hdr t ht
  refine ⟨⟨{ cx2 with done := cx2.done ++ [d] }, { m2 with defs := m2.defs ++ [(d, dctx)] }⟩,
    heq, hSI, hle, ?_, hdmem, ⟨push, htodoChain, hlen⟩, ⟨e2, he2⟩, ⟨ea2, hea2⟩⟩
  show cx2.done ++ [d] = s.cx.done ++ [d]
  rw [hdoneChain]

theorem remaining_mono (tcx : Tcx) {s s2 : EmitState} (hle : StateLE s s2) :
    remaining tcx s2 ≤ remaining tcx s := by
  unfold remaining
  have h1 := length_filter_mono (memAllocIds tcx) (allocDoneB s) (allocDoneB s2)
    (fun a ha => allocDoneB_mono hle a ha)
  have h2 := length_filter_mono (tcx.statics.map Prod.snd) (staticDoneB s) (staticDoneB s2)
    (fun a ha => staticDoneB_mono hle a ha)
  omega

theorem remaining_strict_alloc (tcx : Tcx) {s s2 : EmitState} (hle : StateLE s s2)
    (aid : AllocId) (hmem : aid ∈ memAllocIds tcx)
    (h1 : allocDoneB s aid = false) (h2 : allocDoneB s2 aid = true) :
    remaining tcx s2 < remaining tcx s := by
  unfold remaining
  have ha := length_filter_strict (memAllocIds tcx) (allocDoneB s) (allocDoneB s2)
    (fun a ha => allocDoneB_mono hle a ha) aid hmem h2 h1
  have hb := length_filter_mono (tcx.statics.map Prod.snd) (staticDoneB s) (staticDoneB s2)
    (fun a ha => staticDoneB_mono hle a ha)
  omega

theorem remaining_strict_static (tcx : Tcx) {s s2 : EmitState} (hle : StateLE s s2)
    (info : StaticInfo) (hmem : info ∈ tcx.statics.map Prod.snd)
    (h1 : staticDoneB s info = false) (h2 : staticDoneB s2 info = true) :
    remaining tcx s2 < remaining tcx s := by
  unfold remaining
  have ha := length_filter_mono (memAllocIds tcx) (allocDoneB s) (allocDoneB s2)
    (fun a ha => allocDoneB_mono hle a ha)
  have hb := length_filter_strict (tcx.statics.map Prod.snd) (staticDoneB s) (staticDoneB s2)
    (fun a ha => staticDoneB_mono hle a ha) info hmem h2 h1
  omega

theorem loopMeasure_decreases (tcx : Tcx) {s s2 : EmitState} (it : TodoItem)
    (rest : List TodoItem) (hts : s.cx.todo = it :: rest)
    (push : List TodoItem) (hpush : s2.cx.todo = push ++ rest)
    (hlen : push.length ≤ maxRelocs tcx)
    (hrem : remaining tcx s2 < remaining tcx s) :
    loopMeasure tcx s2 < loopMeasure tcx s := by
  unfold loopMeasure
  rw [hts, hpush, List.length_append, List.length_cons]
  have hmul : (maxRelocs tcx + 1) * (remaining tcx s2 + 1) ≤
      (maxRelocs tcx + 1) * remaining tcx s := Nat.mul_le_mul_left _ hrem
  rw [Nat.mul_add, Nat.mul_one] at hmul
  omega

theorem done_lt_nextId (tcx : Tcx) (s : EmitState) (hinv : StateInv tcx s) :
    ∀ d ∈ s.cx.done, d < s.module.nextId := by
  obtain ⟨⟨-, -, -, hbf⟩, -, -, -, -, hdoneDef, -, -⟩ := hinv
  intro d hd
  have hs := hdoneDef d hd
  cases hl : alookup s.module.defs d with
  | none => rw [hl] at hs; exact absurd hs (by simp)
  | some c => exact hbf _ (alookup_mem hl)

/-- Popping the queue head yields a scan-invariant pre-state, provided the
head accounts for every dedup entry whose pending work item it was. -/
theorem ScanInv_of_pop (tcx : Tcx) (s : EmitState) (it : TodoItem)
    (rest : List TodoItem) (hinv : StateInv tcx s) (htodo : s.cx.todo = it :: rest)
    (ex : DataId)
    (hhead : ∀ p ∈ s.cx.anon_allocs, TodoItem.Alloc p.1 = it → p.2 = ex) :
    ScanInv ex { s.cx with todo := rest } s.module := by
  obtain ⟨hmod, hnodA, hdeclA, hdefA, hpend, -, -, -⟩ := hinv
  refine ⟨hmod, hnodA, hdeclA, hdefA, ?_⟩
  intro p hp
  rcases hpend p hp with h1 | h1
  · exact Or.inl h1
  · rw [htodo] at h1
    rcases List.mem_cons.mp h1 with h2 | h2
    · exact Or.inr (Or.inr (hhead p hp h2))
    · exact Or.inr (Or.inl h2)

/-- Skipping an already-emitted queue head: the state invariant survives the
pop and the measure strictly drops. -/
theorem skip_state_facts (tcx : Tcx) (s : EmitState) (it : TodoItem)
    (rest : List TodoItem) (hinv : StateInv tcx s) (htodo : s.cx.todo = it :: rest)
    (hhead : ∀ p ∈ s.cx.anon_allocs, TodoItem.Alloc p.1 = it → p.2 ∈ s.cx.done) :
    StateInv tcx ⟨{ s.cx with todo := rest }, s.module⟩ ∧
    StateLE s ⟨{ s.cx with todo := rest }, s.module⟩ ∧
    loopMeasure tcx ⟨{ s.cx with todo := rest }, s.module⟩ < loopMeasure tcx s := by
  obtain ⟨hmod, hnodA, hdeclA, hdefA, hpend, hdoneDef, htodoWF, hrel⟩ := hinv
  refine ⟨⟨hmod, hnodA, hdeclA, hdefA, ?_, hdoneDef, ?_, hrel⟩,
    ⟨fun _ h => h, fun _ _ h => h, fun _ _ h => h, fun _ _ h => h, fun _ _ h => h⟩, ?_⟩
  · intro p hp
    rcases hpend p hp with h1 | h1
    · exact Or.inl h1
    · rw [htodo] at h1
      rcases List.mem_cons.mp h1 with h2 | h2
      · exact Or.inl (hhead p hp h2)
      · exact Or.inr h2
  · intro x hx
    have hx2 : x ∈ s.cx.todo := by rw [htodo]; exact List.mem_cons_of_mem _ hx
    exact htodoWF x hx2
  · have h1 : (⟨{ s.cx with todo := rest }, s.module⟩ : EmitState).cx.todo = rest := rfl
    have hre : remaining tcx ⟨{ s.cx with todo := rest }, s.module⟩ =
        remaining tcx s := rfl
    simp only [loopMeasure, h1, hre, htodo, List.length_cons]
    omega

/-- One drain-loop iteration under well-formedness succeeds, preserves the
state invariant, grows the state monotonically, strictly decreases the
termination measure, emits the popped identity, and keeps the remaining
queue. -/
theorem define_all_allocs_step_WF (tcx : Tcx) (s : EmitState) (it : TodoItem)
    (rest : List TodoItem) (hWF : tcxWFB tcx = true) (hinv : StateInv tcx s)
    (htodo : s.cx.todo = it :: rest) :
    ∃ s2, define_all_allocs_step tcx s = StepOut.next s2 ∧
      StateInv tcx s2 ∧ StateLE s s2 ∧
      loopMeasure tcx s2 < loopMeasure tcx s ∧
      itemDone tcx s2 it ∧
      (∀ x ∈ rest, x ∈ s2.cx.todo) := by
  have hitWF : todoWFB tcx s it = true :=
    hinv.2.2.2.2.2.2.1 it (by rw [htodo]; exact List.mem_cons_self _ _)
  have hrestmem : ∀ x ∈ rest, x ∈ s.cx.todo := by
    intro x hx
    rw [htodo]
    exact List.mem_cons_of_mem _ hx
  have hdonelt := done_lt_nextId tcx s hinv
  cases it with
  | Alloc aid =>
      have hmem : isMemoryTarget tcx aid = true := hitWF
      obtain ⟨alloc, hga⟩ : ∃ a, tcx.getGlobalAlloc aid = some (GlobalAlloc.Memory a) := by
        cases hga : tcx.getGlobalAlloc aid with
        | none =>
            simp only [isMemoryTarget, hga] at hmem
            exact absurd hmem (by simp)
        | some g =>
            cases g with
            | Memory a => exact ⟨a, rfl⟩
            | Function f =>
                simp only [isMemoryTarget, hga] at hmem
                exact absurd hmem (by simp)
            | Static d2 =>
                simp only [isMemoryTarget, hga] at hmem
                exact absurd hmem (by simp)
      have hal : allocWFB tcx alloc = true := memory_allocWFB_of_WF tcx hWF aid alloc hga
      cases hc : alookup s.cx.anon_allocs aid with
      | some d =>
          have hpd : (aid, d) ∈ s.cx.anon_allocs := alookup_mem hc
          have hddecl : d < s.module.nextId := by
            have hda := hinv.2.2.1 (aid, d) hpd
            cases hl : alookup s.module.decls d with
            | none =>
                simp only [declaredAnonB, hl] at hda
                exact absurd hda (by simp)
            | some dec => exact hinv.1.2.1 _ (alookup_mem hl)
          by_cases hdone : d ∈ s.cx.done
          · have hhead : ∀ p ∈ s.cx.anon_allocs,
                TodoItem.Alloc p.1 = TodoItem.Alloc aid → p.2 ∈ s.cx.done := by
              intro p hp he
              injection he with he2
              have hup : alookup s.cx.anon_allocs p.1 = some p.2 :=
                alookup_of_mem_nodup hp hinv.2.1
              rw [he2, hc] at hup
              injection hup with he3
              rw [← he3]
              exact hdone
            obtain ⟨hSI, hle, hms⟩ := skip_state_facts tcx s _ rest hinv htodo hhead
            refine ⟨⟨{ s.cx with todo := rest }, s.module⟩, ?_, hSI, hle, hms, ?_, ?_⟩
            · simp only [define_all_allocs_step, htodo, hga, data_id_for_alloc_id, hc,
                define_one]
              rw [if_pos hdone]
            · exact ⟨d, hc, hdone⟩
            · intro x hx
              exact hx
          · have hhead2 : ∀ p ∈ s.cx.anon_allocs,
                TodoItem.Alloc p.1 = TodoItem.Alloc aid → p.2 = d := by
              intro p hp he
              injection he with he2
              have hup : alookup s.cx.anon_allocs p.1 = some p.2 :=
                alookup_of_mem_nodup hp hinv.2.1
              rw [he2, hc] at hup
              injection hup with he3
              exact he3.symm
            have hinv0 : ScanInv d { s.cx with todo := rest } s.module :=
              ScanInv_of_pop tcx s _ rest hinv htodo d hhead2
            have hdefd : alookup s.module.defs d = none := by
              cases hl : alookup s.module.defs d with
              | none => rfl
              | some c =>
                  have hind : d ∈ s.cx.done :=
                    hinv.2.2.2.1 (aid, d) hpd (by rw [hl]; simp)
                  exact absurd hind hdone
            obtain ⟨s2, heqA, hSI, hle, hdoneEq, hdmem, ⟨push, hpushEq, hlen⟩,
              ⟨E, hdecls2⟩, ⟨ea2, hanon2⟩⟩ :=
              step_assemble tcx s rest d { s.cx with todo := rest } s.module alloc none
                hWF hinv hal rfl hrestmem rfl ⟨[], by simp⟩ ⟨[], by simp, by simp⟩ rfl
                (le_refl _) hinv0 hdone hdefd hddecl
            have hlook2 : alookup s2.cx.anon_allocs aid = some d := by
              rw [hanon2]
              exact alookup_append_some _ hc
            have h1 : allocDoneB s aid = false := by
              simp only [allocDoneB, hc]
              simp [hdone]
            have h2 : allocDoneB s2 aid = true := by
              simp only [allocDoneB, hlook2]
              simp [hdmem]
            have hrem := remaining_strict_alloc tcx hle aid
              (mem_memAllocIds tcx aid alloc hga) h1 h2
            have hms := loopMeasure_decreases tcx _ rest htodo push hpushEq
              (le_trans hlen (mem_relocs_le_maxRelocs tcx aid alloc hga)) hrem
            refine ⟨s2, ?_, hSI, hle, hms, ⟨d, hlook2, hdmem⟩, ?_⟩
            · simp only [define_all_allocs_step, htodo, hga, data_id_for_alloc_id, hc]
              exact heqA
            · intro x hx
              rw [hpushEq]
              exact List.mem_append_right _ hx
      | none =>
          have hhead2 : ∀ p ∈ s.cx.anon_allocs,
              TodoItem.Alloc p.1 = TodoItem.Alloc aid → p.2 = s.module.nextId := by
            intro p hp he
            injection he with he2
            exfalso
            have hp2 : (aid, p.2) ∈ s.cx.anon_allocs := by
              rw [← he2]
              exact hp
            exact alookup_none_not_key hc p.2 hp2
          have hinv0 : ScanInv s.module.nextId { s.cx with todo := rest } s.module :=
            ScanInv_of_pop tcx s _ rest hinv htodo _ hhead2
          have hinv1 := ScanInv_anon_insert_ex { s.cx with todo := rest } s.module hinv0
            aid (decide (alloc.mutability = Mutability.Mut)) hc
          have hnd : s.module.nextId ∉ s.cx.done := fun h =>
            absurd (hdonelt _ h) (lt_irrefl _)
          have hdefd : alookup s.module.defs s.module.nextId = none :=
            alookup_none_of_le _ _ _ hinv.1.2.2.2 (le_refl _)
          obtain ⟨s2, heqA, hSI, hle, hdoneEq, hdmem, ⟨push, hpushEq, hlen⟩,
            ⟨E, hdecls2⟩, ⟨ea2, hanon2⟩⟩ :=
            step_assemble tcx s rest s.module.nextId
              ⟨rest, s.cx.done, s.cx.anon_allocs ++ [(aid, s.module.nextId)]⟩
              ⟨s.module.nextId + 1,
                s.module.decls ++ [(s.module.nextId,
                  ⟨none, Linkage.Local, decide (alloc.mutability = Mutability.Mut), false⟩)],
                s.module.funcs, s.module.defs⟩
              alloc none hWF hinv hal rfl hrestmem rfl
              ⟨[(aid, s.module.nextId)], rfl⟩
              ⟨[(s.module.nextId,
                  ⟨none, Linkage.Local, decide (alloc.mutability = Mutability.Mut), false⟩)],
                rfl, by simp⟩
              rfl (Nat.le_succ _) hinv1 hnd hdefd (Nat.lt_succ_self _)
          have hlook2 : alookup s2.cx.anon_allocs aid = some s.module.nextId := by
            rw [hanon2]
            have hbase : alookup (s.cx.anon_allocs ++ [(aid, s.module.nextId)]) aid =
                some s.module.nextId := by
              rw [alookup_append_none _ hc]
              exact alookup_singleton _ _
            exact alookup_append_some _ hbase
          have h1 : allocDoneB s aid = false := by
            simp [allocDoneB, hc]
          have h2 : allocDoneB s2 aid = true := by
            simp only [allocDoneB, hlook2]
            simp [hdmem]
          have hrem := remaining_strict_alloc tcx hle aid
            (mem_memAllocIds tcx aid alloc hga) h1 h2
          have hms := loopMeasure_decreases tcx _ rest htodo push hpushEq
            (le_trans hlen (mem_relocs_le_maxRelocs tcx aid alloc hga)) hrem
          refine ⟨s2, ?_, hSI, hle, hms, ⟨s.module.nextId, hlook2, hdmem⟩, ?_⟩
          · simp only [define_all_allocs_step, htodo, hga, data_id_for_alloc_id, hc,
              declare_anonymous_data]
            exact heqA
          · intro x hx
            rw [hpushEq]
            exact List.mem_append_right _ hx
  | Static did =>
      cases hsi : tcx.staticInfo did with
      | none =>
          exfalso
          simp only [todoWFB, hsi] at hitWF
          exact absurd hitWF (by simp)
      | some info =>
          have hrl : info.rlinkage = none := static_rlinkage_none_of_WF tcx hWF did info hsi
          have hal : allocWFB tcx info.initAlloc = true := static_initAlloc_WF tcx hWF did info hsi
          have hnh := data_id_for_static_no_hint_eq tcx s.module did info true hsi hrl
          have hinfomem : info ∈ tcx.statics.map Prod.snd :=
            List.mem_map.mpr ⟨(did, info), alookup_mem hsi, rfl⟩
          have hheadv : ∀ p ∈ s.cx.anon_allocs,
              TodoItem.Alloc p.1 = TodoItem.Static did → p.2 ∈ s.cx.done :=
            fun p hp he => absurd he (by simp)
          cases hf : findNamedAux s.module.decls info.symbolName with
          | some d0 =>
              have hstatWF : (!(alookup s.module.defs d0).isSome ||
                  decide (d0 ∈ s.cx.done)) = true := by
                simpa [todoWFB, hsi, hf] using hitWF
              have hd0lt : d0 < s.module.nextId := by
                obtain ⟨dec, hdm, -⟩ := findNamedAux_mem hf
                exact hinv.1.2.1 _ hdm
              by_cases hdone : d0 ∈ s.cx.done
              · obtain ⟨hSI, hle, hms⟩ := skip_state_facts tcx s _ rest hinv htodo hheadv
                refine ⟨⟨{ s.cx with todo := rest }, s.module⟩, ?_, hSI, hle, hms, ?_, ?_⟩
                · simp only [define_all_allocs_step, htodo, hsi, hnh, declare_data, hf,
                    define_one]
                  rw [if_pos hdone]
                · refine ⟨d0, ?_, hdone⟩
                  simp only [itemHandle, hsi]
                  exact hf
                · intro x hx
                  exact hx
              · have hdefd : alookup s.module.defs d0 = none := by
                  cases hl : alookup s.module.defs d0 with
                  | none => rfl
                  | some c =>
                      rw [hl] at hstatWF
                      simp only [Option.isSome_some, Bool.not_true, Bool.false_or,
                        decide_eq_true_eq] at hstatWF
                      exact absurd hstatWF hdone
                have hhead2 : ∀ p ∈ s.cx.anon_allocs,
                    TodoItem.Alloc p.1 = TodoItem.Static did → p.2 = d0 :=
                  fun p hp he => absurd he (by simp)
                have hinv0 : ScanInv d0 { s.cx with todo := rest } s.module :=
                  ScanInv_of_pop tcx s _ rest hinv htodo d0 hhead2
                obtain ⟨s2, heqA, hSI, hle, hdoneEq, hdmem, ⟨push, hpushEq, hlen⟩,
                  ⟨E, hdecls2⟩, -⟩ :=
                  step_assemble tcx s rest d0 { s.cx with todo := rest } s.module
                    info.initAlloc info.linkSection hWF hinv hal rfl hrestmem rfl
                    ⟨[], by simp⟩ ⟨[], by simp, by simp⟩ rfl (le_refl _)
                    hinv0 hdone hdefd hd0lt
                have hname2 : findNamedAux s2.module.decls info.symbolName = some d0 := by
                  rw [hdecls2]
                  exact findNamedAux_append_some _ hf
                have h1 : staticDoneB s info = false := by
                  simp only [staticDoneB, hf]
                  simp [hdone]
                have h2 : staticDoneB s2 info = true := by
                  simp only [staticDoneB, hname2]
                  simp [hdmem]
                have hrem := remaining_strict_static tcx hle info hinfomem h1 h2
                have hms := loopMeasure_decreases tcx _ rest htodo push hpushEq
                  (le_trans hlen (static_relocs_le_maxRelocs tcx did info hsi)) hrem
                refine ⟨s2, ?_, hSI, hle, hms, ?_, ?_⟩
                · simp only [define_all_allocs_step, htodo, hsi, hnh, declare_data, hf]
                  exact heqA
                · refine ⟨d0, ?_, hdmem⟩
                  simp only [itemHandle, hsi]
                  exact hname2
                · intro x hx
                  rw [hpushEq]
                  exact List.mem_append_right _ hx
          | none =>
              have hhead2 : ∀ p ∈ s.cx.anon_allocs,
                  TodoItem.Alloc p.1 = TodoItem.Static did → p.2 = s.module.nextId :=
                fun p hp he => absurd he (by simp)
              have hinv0 : ScanInv s.module.nextId { s.cx with todo := rest } s.module :=
                ScanInv_of_pop tcx s _ rest hinv htodo _ hhead2
              have hinv1 := ScanInv_module_decl s.module.nextId { s.cx with todo := rest }
                s.module hinv0
                ⟨some info.symbolName, info.defLinkage,
                  info.isMutableStatic || !info.isFreeze, info.threadLocal⟩
              have hnd : s.module.nextId ∉ s.cx.done := fun h =>
                absurd (hdonelt _ h) (lt_irrefl _)
              have hdefd : alookup s.module.defs s.module.nextId = none :=
                alookup_none_of_le _ _ _ hinv.1.2.2.2 (le_refl _)
              obtain ⟨s2, heqA, hSI, hle, hdoneEq, hdmem, ⟨push, hpushEq, hlen⟩,
                ⟨E, hdecls2⟩, -⟩ :=
                step_assemble tcx s rest s.module.nextId { s.cx with todo := rest }
                  ⟨s.module.nextId + 1,
                    s.module.decls ++ [(s.module.nextId,
                      ⟨some info.symbolName, info.defLinkage,
                        info.isMutableStatic || !info.isFreeze, info.threadLocal⟩)],
                    s.module.funcs, s.module.defs⟩
                  info.initAlloc info.linkSection hWF hinv hal rfl hrestmem rfl
                  ⟨[], by simp⟩
                  ⟨[(s.module.nextId,
                      ⟨some info.symbolName, info.defLinkage,
                        info.isMutableStatic || !info.isFreeze, info.threadLocal⟩)],
                    rfl, by simp⟩
                  rfl (Nat.le_succ _) hinv1 hnd hdefd (Nat.lt_succ_self _)
              have hnameP : findNamedAux (s.module.decls ++ [(s.module.nextId,
                  ⟨some info.symbolName, info.defLinkage,
                    info.isMutableStatic || !info.isFreeze, info.threadLocal⟩)])
                  info.symbolName = some s.module.nextId := by
                rw [findNamedAux_append_none _ hf]
                simp [findNamedAux]
              have hname2 : findNamedAux s2.module.decls info.symbolName =
                  some s.module.nextId := by
                rw [hdecls2]
                exact findNamedAux_append_some _ hnameP
              have h1 : staticDoneB s info = false := by
                simp [staticDoneB, hf]
              have h2 : staticDoneB s2 info = true := by
                simp only [staticDoneB, hname2]
                simp [hdmem]
              have hrem := remaining_strict_static tcx hle info hinfomem h1 h2
              have hms := loopMeasure_decreases tcx _ rest htodo push hpushEq
                (le_trans hlen (static_relocs_le_maxRelocs tcx did info hsi)) hrem
              refine ⟨s2, ?_, hSI, hle, hms, ?_, ?_⟩
              · simp only [define_all_allocs_step, htodo, hsi, hnh, declare_data, hf]
                exact heqA
              · refine ⟨s.module.nextId, ?_, hdmem⟩
                simp only [itemHandle, hsi]
                exact hname2
              · intro x hx
                rw [hpushEq]
                exact List.mem_append_right _ hx

theorem itemDone_mono {tcx : Tcx} {s s2 : EmitState} (hle : StateLE s s2)
    (it : TodoItem) (h : itemDone tcx s it) : itemDone tcx s2 it := by
  obtain ⟨d, hh, hd⟩ := h
  cases it with
  | Alloc aid =>
      exact ⟨d, hle.anon_le aid d hh, hle.done_le d hd⟩
  | Static did =>
      cases hsi : tcx.staticInfo did with
      | none =>
          simp only [itemHandle, hsi] at hh
          exact absurd hh (by simp)
      | some info =>
          simp only [itemHandle, hsi] at hh
          refine ⟨d, ?_, hle.done_le d hd⟩
          simp only [itemHandle, hsi]
          exact hle.named_le _ d hh

/-- The drain loop with fuel one above the measure runs to completion and
empties the queue, with every initially queued identity emitted. -/
theorem define_all_allocs_loop_WF (tcx : Tcx) (hWF : tcxWFB tcx = true) :
    ∀ (k : Nat) (s : EmitState), StateInv tcx s → loopMeasure tcx s ≤ k →
    ∃ sf, define_all_allocs_loop tcx (k + 1) s = some sf ∧
      StateInv tcx sf ∧ StateLE s sf ∧ sf.cx.todo = [] ∧
      (∀ it ∈ s.cx.todo, itemDone tcx sf it) := by
  intro k
  induction k with
  | zero =>
      intro s hinv hm
      cases ht : s.cx.todo with
      | nil =>
          refine ⟨s, ?_, hinv, StateLE.rfl s, ht, ?_⟩
          · simp [define_all_allocs_loop, define_all_allocs_step, ht]
          · intro it hit
            exact absurd hit (by simp)
      | cons a t =>
          exfalso
          unfold loopMeasure at hm
          rw [ht] at hm
          simp [List.length_cons] at hm
  | succ k ih =>
      intro s hinv hm
      cases ht : s.cx.todo with
      | nil =>
          refine ⟨s, ?_, hinv, StateLE.rfl s, ht, ?_⟩
          · simp [define_all_allocs_loop, define_all_allocs_step, ht]
          · intro it hit
            exact absurd hit (by simp)
      | cons a t =>
          obtain ⟨s2, hstep, hinv2, hle2, hms, hdone_a, hrest⟩ :=
            define_all_allocs_step_WF tcx s a t hWF hinv ht
          have hm2 : loopMeasure tcx s2 ≤ k := by omega
          obtain ⟨sf, hloop, hinvf, hlef, htf, hdf⟩ := ih s2 hinv2 hm2
          refine ⟨sf, ?_, hinvf, StateLE.comp hle2 hlef, htf, ?_⟩
          · simp only [define_all_allocs_loop, hstep]
            exact hloop
          · intro it hit
            rcases List.mem_cons.mp hit with rfl | h2
            · exact itemDone_mono hlef it hdone_a
            · exact hdf it (hrest it h2)

/-- Re-enqueueing an already-emitted identity is a no-op: one step just pops
it, touching neither the module nor the dedup tables. -/
theorem define_all_allocs_step_skip (tcx : Tcx) (hWF : tcxWFB tcx = true)
    (s : EmitState) (it : TodoItem) (rest : List TodoItem)
    (hinv : StateInv tcx s) (htodo : s.cx.todo = it :: rest)
    (hd : itemDone tcx s it) :
    define_all_allocs_step tcx s =
      StepOut.next ⟨{ s.cx with todo := rest }, s.module⟩ := by
  obtain ⟨d, hh, hdone⟩ := hd
  have hitWF : todoWFB tcx s it = true :=
    hinv.2.2.2.2.2.2.1 it (by rw [htodo]; exact List.mem_cons_self _ _)
  cases it with
  | Alloc aid =>
      have hmem : isMemoryTarget tcx aid = true := hitWF
      obtain ⟨alloc, hga⟩ : ∃ a, tcx.getGlobalAlloc aid = some (GlobalAlloc.Memory a) := by
        cases hga : tcx.getGlobalAlloc aid with
        | none =>
            simp only [isMemoryTarget, hga] at hmem
            exact absurd hmem (by simp)
        | some g =>
            cases g with
            | Memory a => exact ⟨a, rfl⟩
            | Function f =>
                simp only [isMemoryTarget, hga] at hmem
                exact absurd hmem (by simp)
            | Static d2 =>
                simp only [isMemoryTarget, hga] at hmem
                exact absurd hmem (by simp)
      have hc : alookup s.cx.anon_allocs aid = some d := hh
      simp only [define_all_allocs_step, htodo, hga, data_id_for_alloc_id, hc, define_one]
      rw [if_pos hdone]
  | Static did =>
      cases hsi : tcx.staticInfo did with
      | none =>
          exfalso
          simp only [todoWFB, hsi] at hitWF
          exact absurd hitWF (by simp)
      | some info =>
          have hf : findNamedAux s.module.decls info.symbolName = some d := by
            have hh2 := hh
            simp only [itemHandle, hsi] at hh2
            exact hh2
          have hrl : info.rlinkage = none := static_rlinkage_none_of_WF tcx hWF did info hsi
          have hnh := data_id_for_static_no_hint_eq tcx s.module did info true hsi hrl
          simp only [define_all_allocs_step, htodo, hsi, hnh, declare_data, hf, define_one]
          rw [if_pos hdone]

/-- C2: for every well-formed (finite, possibly cyclic) graph of allocations
and statics, the drain loop `define_all_allocs` terminates (fuel one above
the measure suffices) with the todo queue empty; every queued identity's
object is defined, every dedup-table entry is declared (anonymously) and
defined, the definition table holds each object exactly once, and every
recorded data relocation points at a declared object; moreover a step that
pops an identity whose data object is already in the done set is a no-op
apart from the pop. -/
theorem define_all_allocs_cycle_safe (tcx : Tcx) (s0 : EmitState)
    (hWF : tcxWFB tcx = true) (hinv : StateInv tcx s0) :
    (∃ sf, define_all_allocs_loop tcx (loopMeasure tcx s0 + 1) s0 = some sf ∧
      sf.cx.todo = [] ∧
      (∀ it ∈ s0.cx.todo, ∃ d, itemHandle tcx sf it = some d ∧
        (alookup sf.module.defs d).isSome = true) ∧
      (∀ p ∈ sf.cx.anon_allocs, declaredAnonB sf.module p.2 = true ∧
        (alookup sf.module.defs p.2).isSome = true) ∧
      (sf.module.defs.map Prod.fst).Nodup ∧
      (∀ p ∈ sf.module.defs, ∀ t ∈ p.2.dataRelocs,
        (alookup sf.module.decls t.2.1).isSome = true)) ∧
    (∀ (s : EmitState) (it : TodoItem) (rest : List TodoItem), StateInv tcx s →
      s.cx.todo = it :: rest → itemDone tcx s it →
      define_all_allocs_step tcx s =
        StepOut.next ⟨{ s.cx with todo := rest }, s.module⟩) := by
  constructor
  · obtain ⟨sf, hloop, hinvf, hlef, htf, hdf⟩ :=
      define_all_allocs_loop_WF tcx hWF (loopMeasure tcx s0) s0 hinv (le_refl _)
    refine ⟨sf, hloop, htf, ?_, ?_, hinvf.1.2.2.1, hinvf.2.2.2.2.2.2.2⟩
    · intro it hit
      obtain ⟨d, hh, hd⟩ := hdf it hit
      exact ⟨d, hh, hinvf.2.2.2.2.2.1 d hd⟩
    · intro p hp
      refine ⟨hinvf.2.2.1 p hp, ?_⟩
      rcases hinvf.2.2.2.2.1 p hp with h1 | h1
      · exact hinvf.2.2.2.2.2.1 _ h1
      · rw [htf] at h1
        exact absurd h1 (by simp)
  · intro s it rest hinv2 htodo hd
    exact define_all_allocs_step_skip tcx hWF s it rest hinv2 htodo hd

theorem define_all_allocs_cycle_safe_witness :
    (tcxWFB tcxC = true ∧ StateInv tcxC s0C) ∧
    ((∃ sf, define_all_allocs_loop tcxC (loopMeasure tcxC s0C + 1) s0C = some sf ∧
      sf.cx.todo = [] ∧
      (∀ it ∈ s0C.cx.todo, ∃ d, itemHandle tcxC sf it = some d ∧
        (alookup sf.module.defs d).isSome = true) ∧
      (∀ p ∈ sf.cx.anon_allocs, declaredAnonB sf.module p.2 = true ∧
        (alookup sf.module.defs p.2).isSome = true) ∧
      (sf.module.defs.map Prod.fst).Nodup ∧
      (∀ p ∈ sf.module.defs, ∀ t ∈ p.2.dataRelocs,
        (alookup sf.module.decls t.2.1).isSome = true)) ∧
    (∀ (s : EmitState) (it : TodoItem) (rest : List TodoItem), StateInv tcxC s →
      s.cx.todo = it :: rest → itemDone tcxC s it →
      define_all_allocs_step tcxC s =
        StepOut.next ⟨{ s.cx with todo := rest }, s.module⟩)) :=
  ⟨⟨by decide, by decide⟩,
    define_all_allocs_cycle_safe tcxC s0C (by decide) (by decide)⟩

/-- C1 (amended): under the well-formedness conditions — in particular no
enqueued static carries a source-level linkage hint — every identity in the
work queue has its data object defined by the time `ConstantCx::finalize`
returns, and the definition table holds every object exactly once. -/
theorem define_all_allocs_defines_enqueued_once (tcx : Tcx) (cx : ConstantCx)
    (m : ModuleState) (hWF : tcxWFB tcx = true) (hinv : StateInv tcx ⟨cx, m⟩) :
    ∃ sf, define_all_allocs_loop tcx (loopMeasure tcx ⟨cx, m⟩ + 1) ⟨cx, m⟩ = some sf ∧
      ConstantCx.finalize tcx (loopMeasure tcx ⟨cx, m⟩ + 1) cx m = some sf.module ∧
      (∀ it ∈ cx.todo, ∃ d, itemHandle tcx sf it = some d ∧
        (alookup sf.module.defs d).isSome = true) ∧
      (sf.module.defs.map Prod.fst).Nodup := by
  obtain ⟨sf, hloop, hinvf, hlef, htf, hdf⟩ :=
    define_all_allocs_loop_WF tcx hWF (loopMeasure tcx ⟨cx, m⟩) ⟨cx, m⟩ hinv (le_refl _)
  refine ⟨sf, hloop, ?_, ?_, hinvf.1.2.2.1⟩
  · unfold ConstantCx.finalize
    rw [hloop]
    rfl
  · intro it hit
    obtain ⟨d, hh, hd⟩ := hdf it hit
    exact ⟨d, hh, hinvf.2.2.2.2.2.1 d hd⟩

theorem define_all_allocs_defines_enqueued_once_witness :
    (tcxWFB tcxC = true ∧ StateInv tcxC ⟨cxW1, mEmpty⟩) ∧
    (∃ sf, define_all_allocs_loop tcxC (loopMeasure tcxC ⟨cxW1, mEmpty⟩ + 1)
        ⟨cxW1, mEmpty⟩ = some sf ∧
      ConstantCx.finalize tcxC (loopMeasure tcxC ⟨cxW1, mEmpty⟩ + 1) cxW1 mEmpty =
        some sf.module ∧
      (∀ it ∈ cxW1.todo, ∃ d, itemHandle tcxC sf it = some d ∧
        (alookup sf.module.defs d).isSome = true) ∧
      (sf.module.defs.map Prod.fst).Nodup) :=
  ⟨⟨by decide, by decide⟩,
    define_all_allocs_defines_enqueued_once tcxC cxW1 mEmpty (by decide) (by decide)⟩

end CgClif
